import Mathlib

/-!
NISTDownsampler

A shallow embedding of `src/NISTDownsampler.cpp` (Gaussian low-pass filter
followed by odd-row / odd-column decimation) together with theorems about it.

Conventions of the embedding

* An `IplImage` is the header fields the program reads plus the pixel buffer,
  a map from byte offset to byte.  The C expression
  `((uchar *)(img->imageData + img->widthStep * y))[x]` is
  `img.imageData (img.widthStep * y + x)`.
* A `CvMat` is a map from (row, column) to a cell; the C expression
  `((T *)(m->data.ptr + m->step * y))[x]` is `m (y, x)`.
* `for (int i = 0; i < n; i++)` is a left fold over `List.range n` which
  threads the state the loop body mutates.
* Floating point has two readings.  `GaussianFilter`, `gaussian` and
  `point_distance` are the program in exact arithmetic (the reals, for `sqrt`,
  `exp` and `pi`); they carry the properties stated "in exact arithmetic".
  `Rounded.GaussianFilter` and its parts are the program in its own
  arithmetic: a kernel of `float` cells, sums and products in `double`, every
  operation with a rounding that is a parameter (`FloatOps`), so that a
  theorem on it holds whatever the rounding is.  The first is the second
  without rounding (`rounded_exact`).
* `int` is an unbounded integer; the program's casts are defined in C only
  for values within `int` range.  `size_t` arithmetic is modulo `2^64`.
* A file is its list of bytes; `CommentPGM` returns its outcome (normal return
  or exception) together with the file system it leaves.
* The argument handling of `main` returns either the exit status with the
  messages written to standard error, or the output file name with which
  `main` goes on.
-/

namespace NISTDownsampler

/-! ## Data model -/

/-- An unsigned 8-bit sample, the C type `uchar`. -/
abbrev uchar := Fin 256

/-- The fields of OpenCV's `IplImage` used by the program.  `imageData` maps a
byte offset from the start of the pixel buffer to the byte stored there. -/
structure IplImage where
  width : Nat
  height : Nat
  depth : Nat
  nChannels : Nat
  widthStep : Nat
  imageData : Nat → uchar

/-- The sample the program addresses as
`((uchar *)(img->imageData + img->widthStep * row))[col]`. -/
def IplImage.pixel (img : IplImage) (row col : Nat) : uchar :=
  img.imageData (img.widthStep * row + col)

/-- The image `dst` with its pixel buffer replaced (headers are never mutated
by the program). -/
def IplImage.withData (img : IplImage) (mem : Nat → uchar) : IplImage :=
  ⟨img.width, img.height, img.depth, img.nChannels, img.widthStep, mem⟩

/-- The assignment `buf[off] = v` on a buffer indexed by `A`. -/
def store {A V : Type} [DecidableEq A] (mem : A → V) (off : A) (v : V) : A → V :=
  fun a => if a = off then v else mem a

/-- The cells of OpenCV's `CvMat`, indexed by (row, column). -/
abbrev CvMat (T : Type) := Nat × Nat → T

/-- OpenCV's `cvCreateMat`.  OpenCV leaves the cells uninitialised; the
program writes every cell before it reads it, and the theorems on the
matrices built below hold for every initial content. -/
def cvCreateMat (T : Type) [Zero T] (_rows _cols : Nat) : CvMat T :=
  fun _ => 0

/-- OpenCV's `cvCreateImage(cvSize(width, height), depth, nChannels)`, a
library function outside this repository: a header whose row stride is the row
size in bytes, `(width * nChannels * bits + 7) / 8` with `bits` the depth
without its sign flag `0x80000000`, rounded up to a multiple of 4, over a
buffer with unspecified content `mem`. -/
def cvCreateImage (width height depth nChannels : Nat) (mem : Nat → uchar) : IplImage :=
  ⟨width, height, depth, nChannels,
    ((width * nChannels * (depth % 2147483648) + 7) / 8 + 3) / 4 * 4, mem⟩

/-- OpenCV's `Point`. -/
structure Point where
  x : Int
  y : Int

/-! ## roundbanker (source lines 116-134) -/

/-- The C cast `(int)val` of a floating-point value: truncation toward zero. -/
def castInt {K : Type} [LinearOrderedField K] [FloorRing K] (val : K) : Int :=
  if 0 ≤ val then ⌊val⌋ else ⌈val⌉

/-- The function `roundbanker`; `floor(val)` and `ceil(val)` are converted to
the `int` return type.  `%` on `int` is the truncated remainder `Int.tmod`. -/
def roundbanker {K : Type} [LinearOrderedField K] [FloorRing K] (val : K) : Int :=
  if val - (castInt val : K) < 0.5 then ⌊val⌋
  else if val - (castInt val : K) > 0.5 then ⌈val⌉
  else if Int.tmod (castInt val) 2 = 0 then ⌊val⌋
  else ⌈val⌉

/-- The conversion of an `int` to `uchar` done by the assignment
`dst[..] = roundbanker(wsum)`: reduction modulo 256. -/
def toUchar (z : Int) : uchar :=
  Fin.ofNat (z % 256).toNat

/-! ## point_distance and gaussian (source lines 154-179) -/

/-- The function `point_distance`: the `int` products are converted to
`double` and added, then `sqrt` is taken. -/
noncomputable def point_distance (a b : Point) : ℝ :=
  Real.sqrt ((((b.x - a.x) * (b.x - a.x) : Int) : ℝ) + (((b.y - a.y) * (b.y - a.y) : Int) : ℝ))

/-- The function `gaussian`, with `CV_PI` the number pi. -/
noncomputable def gaussian (x : ℝ) (mu : Int) (sigma : ℝ) : ℝ :=
  (1 / Real.sqrt (2 * Real.pi * sigma * sigma))
    * Real.exp (-((x - mu) * (x - mu)) / (2 * sigma * sigma))

/-! ## GaussianFilter (source lines 201-272) -/

/-- The side length of the kernel: `int length = radius * 2 + 1`. -/
def GaussianFilter.length (radius : Nat) : Nat :=
  radius * 2 + 1

/-- First loop nest of the kernel construction ("Calculate distances"): cell
(row `y`, column `x`) receives the distance of `(x, y)` to the centre. -/
noncomputable def GaussianFilter.distances (radius : Nat) (gaussian_kernel : CvMat ℝ) :
    CvMat ℝ :=
  let length := GaussianFilter.length radius
  let center : Point := ⟨radius, radius⟩
  (List.range length).foldl (fun k (x : Nat) =>
    (List.range length).foldl (fun k (y : Nat) =>
      store k (y, x) (point_distance ⟨x, y⟩ center)) k) gaussian_kernel

/-- Second loop nest ("Calculate values based on distances"): every cell is
replaced by `gaussian(cell, 0, sigma)` and added to `sum`, which starts at 0.
The result is the matrix and `sum`. -/
noncomputable def GaussianFilter.values (sigma : ℝ) (radius : Nat) (gaussian_kernel : CvMat ℝ) :
    CvMat ℝ × ℝ :=
  let length := GaussianFilter.length radius
  (List.range length).foldl (fun s (x : Nat) =>
    (List.range length).foldl (fun s (y : Nat) =>
      let k := store s.1 (y, x) (gaussian (s.1 (y, x)) 0 sigma)
      (k, s.2 + k (y, x))) s) (gaussian_kernel, 0)

/-- Third loop nest: every cell is divided by `sum`. -/
noncomputable def GaussianFilter.normalize (radius : Nat) (gaussian_kernel : CvMat ℝ) (sum : ℝ) :
    CvMat ℝ :=
  let length := GaussianFilter.length radius
  (List.range length).foldl (fun k (x : Nat) =>
    (List.range length).foldl (fun k (y : Nat) =>
      store k (y, x) (k (y, x) / sum)) k) gaussian_kernel

/-- The normalising `sum` computed by the kernel construction, starting from
the matrix `m` that `cvCreateMat` returned. -/
noncomputable def GaussianFilter.kernelSum (sigma : ℝ) (radius : Nat) (m : CvMat ℝ) : ℝ :=
  (GaussianFilter.values sigma radius (GaussianFilter.distances radius m)).2

/-- The kernel construction of `GaussianFilter` (source lines 204-233),
starting from the matrix `m` that `cvCreateMat` returned. -/
noncomputable def GaussianFilter.kernel (sigma : ℝ) (radius : Nat) (m : CvMat ℝ) : CvMat ℝ :=
  let vs := GaussianFilter.values sigma radius (GaussianFilter.distances radius m)
  GaussianFilter.normalize radius vs.1 vs.2

/-- The loop nest "get surrounding pixels" for the destination pixel at
(row `y`, column `x`): fills the `length` x `length` matrix `area`. -/
def GaussianFilter.surround (radius : Nat) (src : IplImage) (y x : Nat) (area : CvMat uchar) :
    CvMat uchar :=
  let length := GaussianFilter.length radius
  (List.range length).foldl (fun area (y2 : Nat) =>
    (List.range length).foldl (fun area (x2 : Nat) =>
      let xbound : Int := (x : Int) - (radius : Int) + (x2 : Int)
      let ybound : Int := (y : Int) - (radius : Int) + (y2 : Int)
      if xbound ≥ 0 ∧ xbound < (src.width : Int) ∧ ybound ≥ 0 ∧ ybound < (src.height : Int) then
        store area (y2, x2)
          (src.imageData (src.widthStep * ((y : Int) - (radius : Int) + (y2 : Int)).toNat
            + ((x : Int) - (radius : Int) + (x2 : Int)).toNat))
      else
        store area (y2, x2) (src.imageData (src.widthStep * y + x))) area) area

/-- The loop nest "find weighted sum": `wsum` starts at 0 and accumulates
`area[y2][x2] * gaussian_kernel[y2][x2]`, `x2` in the outer loop. -/
def GaussianFilter.wsum {K : Type} [LinearOrderedField K] (radius : Nat)
    (gaussian_kernel : CvMat K) (area : CvMat uchar) : K :=
  let length := GaussianFilter.length radius
  (List.range length).foldl (fun wsum x2 =>
    (List.range length).foldl (fun wsum y2 =>
      wsum + ((area (y2, x2)).val : K) * gaussian_kernel (y2, x2)) wsum) 0

/-- The filter step of `GaussianFilter` ("Apply filter", source lines 236-271)
for a given kernel.  The state of the pixel loops is the scratch matrix `area`
and the buffer of `dst`. -/
def GaussianFilter.apply {K : Type} [LinearOrderedField K] [FloorRing K] (radius : Nat)
    (gaussian_kernel : CvMat K) (area : CvMat uchar) (src dst : IplImage) : IplImage :=
  dst.withData <|
    ((List.range src.height).foldl (fun s y =>
      (List.range src.width).foldl (fun s x =>
        let area := GaussianFilter.surround radius src y x s.1
        let wsum := GaussianFilter.wsum radius gaussian_kernel area
        (area, store s.2 (dst.widthStep * y + x) (toUchar (roundbanker wsum)))) s)
      (area, dst.imageData)).2

/-- The function `GaussianFilter`: kernel construction, then the filter step.
The `int` parameter `radius` is a natural number here (`cvCreateMat` rejects a
negative side length). -/
noncomputable def GaussianFilter (src dst : IplImage) (sigma : ℝ) (radius : Nat) : IplImage :=
  let length := GaussianFilter.length radius
  let gaussian_kernel := GaussianFilter.kernel sigma radius (cvCreateMat ℝ length length)
  GaussianFilter.apply radius gaussian_kernel (cvCreateMat uchar length length) src dst

/-! ## GaussianFilter in the arithmetic of the program -/

/-- The floating-point arithmetic of the program.  A `double` is the number
it denotes, an element of the ordered field `K`; `add`, `sub`, `mul`, `div`,
`sqrt` and `exp` are the operations on `double` with their rounding, `pi` is
the constant `CV_PI`, and `toFloat` is the rounding of a `double` at a store
into a cell of a `CV_32F` matrix (reading the cell back as `double` is exact,
as are the conversions of `int` and `uchar` to `double` and the negation).
Nothing is assumed about the operations, so what holds for every `FloatOps`
holds for IEEE 754 arithmetic on finite values. -/
structure FloatOps (K : Type) where
  add : K → K → K
  sub : K → K → K
  mul : K → K → K
  div : K → K → K
  sqrt : K → K
  exp : K → K
  pi : K
  toFloat : K → K

/-- The arithmetic without rounding, on the real numbers. -/
noncomputable def FloatOps.exact : FloatOps ℝ :=
  ⟨fun a b => a + b, fun a b => a - b, fun a b => a * b, fun a b => a / b, Real.sqrt, Real.exp,
    Real.pi, fun a => a⟩

/-- The function `point_distance` in the arithmetic `ops`: the two `int`
products are converted to `double`, added, and `sqrt` is taken. -/
def Rounded.point_distance {K : Type} [LinearOrderedField K] (ops : FloatOps K)
    (a b : Point) : K :=
  ops.sqrt (ops.add (((b.x - a.x) * (b.x - a.x) : Int) : K)
    (((b.y - a.y) * (b.y - a.y) : Int) : K))

/-- The function `gaussian` in the arithmetic `ops`:
`(1 / sqrt(2 * CV_PI * sigma * sigma)) * exp(-((x - mu) * (x - mu)) / (2 * sigma * sigma))`,
every operation on `double`. -/
def Rounded.gaussian {K : Type} [LinearOrderedField K] (ops : FloatOps K) (x : K) (mu : Int)
    (sigma : K) : K :=
  ops.mul (ops.div 1 (ops.sqrt (ops.mul (ops.mul (ops.mul 2 ops.pi) sigma) sigma)))
    (ops.exp (ops.div (-(ops.mul (ops.sub x (mu : K)) (ops.sub x (mu : K))))
      (ops.mul (ops.mul 2 sigma) sigma)))

/-- First loop nest of the kernel construction in the arithmetic `ops`: the
distance is rounded to `float` when it is stored in the cell. -/
def Rounded.GaussianFilter.distances {K : Type} [LinearOrderedField K] (ops : FloatOps K)
    (radius : Nat) (gaussian_kernel : CvMat K) : CvMat K :=
  let length := GaussianFilter.length radius
  let center : Point := ⟨radius, radius⟩
  (List.range length).foldl (fun k (x : Nat) =>
    (List.range length).foldl (fun k (y : Nat) =>
      store k (y, x) (ops.toFloat (Rounded.point_distance ops ⟨x, y⟩ center))) k) gaussian_kernel

/-- Second loop nest of the kernel construction in the arithmetic `ops`: the
value of `gaussian` is rounded to `float` when it is stored in the cell, and
the cell is added to the `double` variable `sum`. -/
def Rounded.GaussianFilter.values {K : Type} [LinearOrderedField K] (ops : FloatOps K)
    (sigma : K) (radius : Nat) (gaussian_kernel : CvMat K) : CvMat K × K :=
  let length := GaussianFilter.length radius
  (List.range length).foldl (fun s (x : Nat) =>
    (List.range length).foldl (fun s (y : Nat) =>
      let k := store s.1 (y, x) (ops.toFloat (Rounded.gaussian ops (s.1 (y, x)) 0 sigma))
      (k, ops.add s.2 (k (y, x)))) s) (gaussian_kernel, 0)

/-- Third loop nest of the kernel construction in the arithmetic `ops`: the
cell is divided by `sum` in `double` and the quotient is rounded to `float`
when it is stored. -/
def Rounded.GaussianFilter.normalize {K : Type} [LinearOrderedField K] (ops : FloatOps K)
    (radius : Nat) (gaussian_kernel : CvMat K) (sum : K) : CvMat K :=
  let length := GaussianFilter.length radius
  (List.range length).foldl (fun k (x : Nat) =>
    (List.range length).foldl (fun k (y : Nat) =>
      store k (y, x) (ops.toFloat (ops.div (k (y, x)) sum))) k) gaussian_kernel

/-- The kernel construction of `GaussianFilter` (source lines 204-233) in the
arithmetic `ops`, starting from the matrix `m` that `cvCreateMat` returned. -/
def Rounded.GaussianFilter.kernel {K : Type} [LinearOrderedField K] (ops : FloatOps K)
    (sigma : K) (radius : Nat) (m : CvMat K) : CvMat K :=
  let vs := Rounded.GaussianFilter.values ops sigma radius
    (Rounded.GaussianFilter.distances ops radius m)
  Rounded.GaussianFilter.normalize ops radius vs.1 vs.2

/-- The loop nest "find weighted sum" in the arithmetic `ops`: `wsum` starts
at 0 and each iteration, `x2` in the outer loop and `y2` in the inner loop,
adds the product `area[y2][x2] * gaussian_kernel[y2][x2]` to it in `double`. -/
def Rounded.GaussianFilter.wsum {K : Type} [LinearOrderedField K] (ops : FloatOps K)
    (radius : Nat) (gaussian_kernel : CvMat K) (area : CvMat uchar) : K :=
  let length := GaussianFilter.length radius
  (List.range length).foldl (fun wsum x2 =>
    (List.range length).foldl (fun wsum y2 =>
      ops.add wsum (ops.mul ((area (y2, x2)).val : K) (gaussian_kernel (y2, x2)))) wsum) 0

/-- The filter step of `GaussianFilter` (source lines 236-271) in the
arithmetic `ops`.  The argument of `roundbanker` is a `double`; on a `double`
within `int` range the subtraction `val - (int)val` is exact, so `roundbanker`
is the function on the number the `double` denotes. -/
def Rounded.GaussianFilter.apply {K : Type} [LinearOrderedField K] [FloorRing K]
    (ops : FloatOps K) (radius : Nat) (gaussian_kernel : CvMat K) (area : CvMat uchar)
    (src dst : IplImage) : IplImage :=
  dst.withData <|
    ((List.range src.height).foldl (fun s y =>
      (List.range src.width).foldl (fun s x =>
        let area := GaussianFilter.surround radius src y x s.1
        let wsum := Rounded.GaussianFilter.wsum ops radius gaussian_kernel area
        (area, store s.2 (dst.widthStep * y + x) (toUchar (roundbanker wsum)))) s)
      (area, dst.imageData)).2

/-- The function `GaussianFilter` in the arithmetic `ops`: kernel
construction, then the filter step. -/
def Rounded.GaussianFilter {K : Type} [LinearOrderedField K] [FloorRing K] (ops : FloatOps K)
    (src dst : IplImage) (sigma : K) (radius : Nat) : IplImage :=
  let length := GaussianFilter.length radius
  let gaussian_kernel := Rounded.GaussianFilter.kernel ops sigma radius (cvCreateMat K length length)
  Rounded.GaussianFilter.apply ops radius gaussian_kernel (cvCreateMat uchar length length) src dst

/-! ## DecimateImage (source lines 291-307) -/

/-- The loop nest of `DecimateImage`: for every odd row `y` and odd column `x`
of `src`, store `src[y][x]` at `dst[y / 2][x / 2]`. -/
def DecimateImage (src dst : IplImage) : IplImage :=
  dst.withData <|
    (List.range src.height).foldl (fun mem y =>
      if y % 2 = 1 then
        (List.range src.width).foldl (fun mem x =>
          if x % 2 = 1 then
            store mem (dst.widthStep * (y / 2) + x / 2)
              (src.imageData (src.widthStep * y + x))
          else mem) mem
      else mem) dst.imageData

/-! ## The kernel in the words of the specification -/

/-- The Euclidean distance `d(x, y) = sqrt((x - radius)^2 + (y - radius)^2)` of
the cell `(x, y)` to the centre, as the specification states it. -/
noncomputable def spec_distance (radius x y : Nat) : ℝ :=
  Real.sqrt (((x : ℝ) - radius) ^ 2 + ((y : ℝ) - radius) ^ 2)

/-- The density `g(d) = (1 / sqrt(2 pi sigma^2)) * exp(-d^2 / (2 sigma^2))`, as
the specification states it. -/
noncomputable def spec_density (sigma d : ℝ) : ℝ :=
  (1 / Real.sqrt (2 * Real.pi * sigma ^ 2)) * Real.exp (-(d ^ 2) / (2 * sigma ^ 2))

/-- The one-dimensional weight of the separable kernel,
`k(i) = exp(-(i - radius)^2 / (2 sigma^2))` divided by the sum of these terms
over `0 .. 2 radius`. -/
noncomputable def separable_weight (sigma : ℝ) (radius i : Nat) : ℝ :=
  Real.exp (-(((i : ℝ) - radius) ^ 2) / (2 * sigma ^ 2))
    / ∑ j in Finset.range (2 * radius + 1), Real.exp (-(((j : ℝ) - radius) ^ 2) / (2 * sigma ^ 2))

/-- The tap of the specification for the destination pixel `(x, y)` and the
window position `(x2, y2)`: the source sample at
`(x - radius + x2, y - radius + y2)` when that coordinate lies in
`[0, width) x [0, height)`, and the centre sample `src(x, y)` otherwise. -/
def spec_tap (src : IplImage) (radius x y x2 y2 : Nat) : uchar :=
  if 0 ≤ (x : Int) - radius + x2 ∧ (x : Int) - radius + x2 < src.width
      ∧ 0 ≤ (y : Int) - radius + y2 ∧ (y : Int) - radius + y2 < src.height then
    src.pixel ((y : Int) - radius + y2).toNat ((x : Int) - radius + x2).toNat
  else src.pixel y x

/-- The sum `S` of the specification for the destination pixel `(x, y)`:
the sum over all `(x2, y2)` in `[0, 2 radius] x [0, 2 radius]` of
`tap(x2, y2) * kernel(x2, y2)`. -/
def spec_wsum {K : Type} [LinearOrderedField K] (src : IplImage) (radius : Nat)
    (kernel : CvMat K) (x y : Nat) : K :=
  ∑ x2 in Finset.range (2 * radius + 1), ∑ y2 in Finset.range (2 * radius + 1),
    ((spec_tap src radius x y x2 y2).val : K) * kernel (y2, x2)

/-- The sum `S` of the specification for the destination pixel `(x, y)` as
the program's arithmetic `ops` computes it: the products
`tap(x2, y2) * kernel(x2, y2)` are added in `double`, one at a time, for `x2`
from 0 to `2 radius` and, for each `x2`, `y2` from 0 to `2 radius`. -/
def Rounded.spec_wsum {K : Type} [LinearOrderedField K] (ops : FloatOps K) (src : IplImage)
    (radius : Nat) (kernel : CvMat K) (x y : Nat) : K :=
  (List.range (2 * radius + 1)).foldl (fun w x2 =>
    (List.range (2 * radius + 1)).foldl (fun w y2 =>
      ops.add w (ops.mul ((spec_tap src radius x y x2 y2).val : K) (kernel (y2, x2)))) w) 0

/-- The clamp of an integer to the 8-bit sample range `[0, 255]`, as the
specification asks for. -/
def spec_clamp (z : Int) : Int :=
  max 0 (min 255 z)

/-! ## main (source lines 388-451) -/

/-- The constant `radius` of `main`. -/
def main.radius : Nat := 4

/-- The constant `sigma` of `main`. -/
noncomputable def main.sigma : ℝ := 0.8475

/-- The image `gaussian_img` of `main` after the call of `GaussianFilter`;
`gmem` is the content of the buffer `cvCreateImage` returned. -/
noncomputable def main.gaussian_img (img : IplImage) (gmem : Nat → uchar) : IplImage :=
  GaussianFilter img (cvCreateImage img.width img.height img.depth img.nChannels gmem)
    main.sigma main.radius

/-- The image `downsampled_img` of `main` after the call of `DecimateImage`;
`gmem` and `dmem` are the contents of the buffers `cvCreateImage` returned. -/
noncomputable def main.downsampled_img (img : IplImage) (gmem dmem : Nat → uchar) : IplImage :=
  DecimateImage (main.gaussian_img img gmem)
    (cvCreateImage (img.width / 2) (img.height / 2) img.depth img.nChannels dmem)

/-! ## CommentPGM (source lines 325-366) -/

/-- A file: its bytes, and whether it can be opened for writing. -/
structure File where
  content : List uchar
  writable : Bool

/-- The files by path; `none` is a path that cannot be opened for reading. -/
abbrev FileSystem := String → Option File

/-- The file system after the stream `outfile` on `path` is closed with
`content` written to it. -/
def FileSystem.write (fs : FileSystem) (path : String) (content : List uchar) : FileSystem :=
  fun p => if p = path then some ⟨content, true⟩ else fs p

/-- The exceptions raised in `CommentPGM`: `iostream::failure(pgmfile)` and the
`std::out_of_range` of `vector::at`. -/
inductive CommentError
  | failure (pgmfile : String)
  | out_of_range
  deriving DecidableEq

/-- The order in which `outfile << buffer.at(0) << buffer.at(1) << buffer.at(2)`
evaluates its operands.  Since C++17 each operand is evaluated right before it
is written (`sequenced`); before C++17 the order is unspecified, and
`operandsFirst` is the order in which all three calls of `at` are evaluated
before the first byte is written. -/
inductive EvalOrder
  | sequenced
  | operandsFirst
  deriving DecidableEq

/-- The call `buffer.at(i)` of `std::vector`. -/
def vector_at (buffer : List uchar) (i : Nat) : Except CommentError uchar :=
  match buffer[i]? with
  | some b => Except.ok b
  | none => Except.error CommentError.out_of_range

/-- The statement `outfile << buffer.at(0) << buffer.at(1) << buffer.at(2)`: the
outcome and the bytes written to the stream. -/
def CommentPGM.header (order : EvalOrder) (buffer : List uchar) :
    Except CommentError Unit × List uchar :=
  match order with
  | EvalOrder.sequenced =>
    match vector_at buffer 0 with
    | Except.error e => (Except.error e, [])
    | Except.ok b0 =>
      match vector_at buffer 1 with
      | Except.error e => (Except.error e, [b0])
      | Except.ok b1 =>
        match vector_at buffer 2 with
        | Except.error e => (Except.error e, [b0, b1])
        | Except.ok b2 => (Except.ok (), [b0, b1, b2])
  | EvalOrder.operandsFirst =>
    match vector_at buffer 0, vector_at buffer 1, vector_at buffer 2 with
    | Except.ok b0, Except.ok b1, Except.ok b2 => (Except.ok (), [b0, b1, b2])
    | _, _, _ => (Except.error CommentError.out_of_range, [])

/-- The loop `for (int i = 3; i < size; i++) outfile << buffer.at(i)`, started
with `written` in the stream: the outcome and the bytes in the stream. -/
def CommentPGM.rest (buffer : List uchar) (size : Nat) (written : List uchar) :
    Except CommentError Unit × List uchar :=
  (List.range' 3 (size - 3)).foldl (fun s i =>
    match s.1 with
    | Except.error _ => s
    | Except.ok _ =>
      match vector_at buffer i with
      | Except.error e => (Except.error e, s.2)
      | Except.ok b => (Except.ok (), s.2 ++ [b])) (Except.ok (), written)

/-- The function `CommentPGM`: the outcome (normal return or exception) and the
file system it leaves.  Opening `outfile` with `ios::binary | ios::ate` and
without `ios::in` truncates the file; the file holds what was written to the
stream when the stream is closed, by `close()` or, when an exception leaves
the function, by the destructor of `outfile`.  The comment is a list of bytes;
`#` is byte 35 and `endl` writes the byte 10. -/
def CommentPGM (order : EvalOrder) (fs : FileSystem) (pgmfile : String)
    (comment : List uchar) : Except CommentError Unit × FileSystem :=
  match fs pgmfile with
  | none => (Except.error (CommentError.failure pgmfile), fs)
  | some infile =>
    let size := infile.content.length
    let buffer := infile.content
    if infile.writable = false then (Except.error (CommentError.failure pgmfile), fs)
    else
      match CommentPGM.header order buffer with
      | (Except.error e, written) => (Except.error e, fs.write pgmfile written)
      | (Except.ok _, written) =>
        let r := CommentPGM.rest buffer size (written ++ [35] ++ comment ++ [10])
        (r.1, fs.write pgmfile r.2)

/-! ## main: the command line (source lines 394-434) -/

/-- What `main` writes to standard error: the text
"ERROR: Incorrect number of arguments!", the text of `print_usage` for an
executable, and the text "ERROR: Cannot open output file" for a path. -/
inductive Message
  | incorrectNumberOfArguments
  | usage (executable : String)
  | cannotOpenOutputFile (path : String)
  deriving DecidableEq

/-- How the argument handling of `main` ends: with `exit(status)` after the
messages written to standard error, or by going on to "Load Image" with the
output file name. -/
inductive ArgResult
  | exit (status : Nat) (stderr : List Message)
  | loadImage (outfilename : String)
  deriving DecidableEq

/-- The status `EXIT_SUCCESS`. -/
def EXIT_SUCCESS : Nat := 0

/-- The status `EXIT_FAILURE`. -/
def EXIT_FAILURE : Nat := 1

/-- The value `std::string::npos`, the largest `size_t` (64 bits). -/
def npos : Nat := 18446744073709551615

/-- The call `s.find_last_of(c)` for a single character: the index of the last
occurrence of `c`, or `npos`. -/
def find_last_of (s : List Char) (c : Char) : Nat :=
  s.enum.foldl (fun r p => if p.2 = c then p.1 else r) npos

/-- The string `ext` of `main`:
`outfilename.substr(outfilename.find_last_of(".") + 1)` with every character
lower-cased; the addition is `size_t` arithmetic, modulo `2^64`. -/
def main.ext (outfilename : String) : List Char :=
  let pos := (find_last_of outfilename.toList '.' + 1) % 18446744073709551616
  (outfilename.toList.drop pos).map Char.toLower

/-- The argument handling of `main`; `canOpen path` tells whether
`outfile.open(path)` succeeds. -/
def main.arguments (argv : List String) (canOpen : String → Bool) : ArgResult :=
  if argv.length ≠ 3 then
    ArgResult.exit EXIT_FAILURE [Message.incorrectNumberOfArguments, Message.usage (argv.getD 0 "")]
  else
    if argv.getD 1 "" = "-h" ∨ argv.getD 1 "" = "-help" ∨ argv.getD 1 "" = "?" then
      ArgResult.exit EXIT_SUCCESS [Message.usage (argv.getD 0 "")]
    else
      if main.ext (argv.getD 2 "") = "pgm".toList then
        if canOpen (argv.getD 2 "") = false then
          ArgResult.exit EXIT_FAILURE
            [Message.cannotOpenOutputFile (argv.getD 2 ""), Message.usage (argv.getD 0 "")]
        else ArgResult.loadImage (argv.getD 2 "")
      else ArgResult.exit EXIT_FAILURE [Message.usage (argv.getD 0 "")]

/-- The extension of a path in the words of the specification: the text after
its last `.`, when the path has one. -/
def spec_extension (path : String) : Option (List Char) :=
  if '.' ∈ path.toList then some (path.toList.reverse.takeWhile (fun c => c ≠ '.')).reverse
  else none

/-! ## Channels and mirrors in the words of the specification -/

/-- The sample of channel `k` of the pixel at (row, col) of a raster whose
channels are stored interleaved. -/
def IplImage.sample (img : IplImage) (row col k : Nat) : uchar :=
  img.imageData (img.widthStep * row + col * img.nChannels + k)

/-- The plane of channel `k` of a raster as a single-channel raster with rows
of `width` bytes. -/
def IplImage.plane (img : IplImage) (k : Nat) : IplImage :=
  ⟨img.width, img.height, img.depth, 1, img.width,
    fun off => img.sample (off / img.width) (off % img.width) k⟩

/-- The horizontal mirror of a single-channel raster: the sample at
(row `y`, column `x`) is the sample at (row `y`, column `width - 1 - x`). -/
def IplImage.mirrorH (img : IplImage) : IplImage :=
  img.withData (fun off =>
    if off % img.widthStep < img.width then
      img.imageData (img.widthStep * (off / img.widthStep) + (img.width - 1 - off % img.widthStep))
    else img.imageData off)

/-- The vertical mirror of a single-channel raster: the sample at
(row `y`, column `x`) is the sample at (row `height - 1 - y`, column `x`). -/
def IplImage.mirrorV (img : IplImage) : IplImage :=
  img.withData (fun off =>
    if off / img.widthStep < img.height then
      img.imageData (img.widthStep * (img.height - 1 - off / img.widthStep) + off % img.widthStep)
    else img.imageData off)

/-! ## Sample inputs -/

/-- A 2 x 2 raster with 2 interleaved channels and 4-byte rows whose byte at
offset `off` is `off`. -/
def interleaved2x2 : IplImage :=
  ⟨2, 2, 8, 2, 4, fun off => Fin.ofNat off⟩

/-- A 1 x 1 destination with 2 interleaved channels and 4-byte rows whose
every byte is 9. -/
def interleaved1x1 : IplImage :=
  ⟨1, 1, 8, 2, 4, fun _ => 9⟩

/-- A 2 x 2 destination with 2 interleaved channels and 4-byte rows whose
every byte is 9. -/
def interleavedBlank2x2 : IplImage :=
  ⟨2, 2, 8, 2, 4, fun _ => 9⟩

/-- A 4 x 4 single-channel raster whose sample at (row `r`, column `c`) is
`10 r + c`. -/
def sample4x4 : IplImage :=
  ⟨4, 4, 8, 1, 4, fun off => Fin.ofNat (10 * (off / 4) + off % 4)⟩

/-- A 10 x 10 single-channel raster with 12-byte rows whose every byte is
200. -/
def constant10x10 : IplImage :=
  ⟨10, 10, 8, 1, 12, fun _ => 200⟩

/-- A 3 x 3 single-channel raster with 4-byte rows whose sample at
(row `r`, column `c`) is `10 r + c`. -/
def sample3x3 : IplImage :=
  ⟨3, 3, 8, 1, 4, fun off => Fin.ofNat (10 * (off / 4) + off % 4)⟩

/-- A 3 x 3 single-channel destination with 4-byte rows, zero filled. -/
def blank3x3 : IplImage :=
  ⟨3, 3, 8, 1, 4, fun _ => 0⟩

/-- A 1 x 1 single-channel raster. -/
def sample1x1 : IplImage :=
  ⟨1, 1, 8, 1, 4, fun _ => 7⟩

/-- A 2 x 2 single-channel destination with 4-byte rows, zero filled. -/
def blank2x2 : IplImage :=
  ⟨2, 2, 8, 1, 4, fun _ => 0⟩

/-! ## Loops as folds: general lemmas -/

/-- A store is read back at its own offset. -/
theorem store_same {A V : Type} [DecidableEq A] (mem : A → V) (off : A) (v : V) :
    store mem off v off = v := by
  simp [store]

/-- A store leaves the other offsets unchanged. -/
theorem store_other {A V : Type} [DecidableEq A] (mem : A → V) (v : V) {off a : A}
    (h : a ≠ off) : store mem off v a = mem a := by
  simp [store, h]

/-- A loop guarded by a condition that does not depend on the loop variable is
the loop of the guarded body. -/
theorem foldl_guard {σ α : Type*} (c : Prop) [Decidable c] (f : σ → α → σ) (l : List α)
    (s : σ) :
    (if c then l.foldl f s else s) = l.foldl (fun s a => if c then f s a else s) s := by
  by_cases hc : c
  · simp [hc]
  · simp only [hc, if_false]
    induction l with
    | nil => rfl
    | cons a l ih => rw [List.foldl_cons]; exact ih

/-- A nest of two loops is one loop over the pairs of indices, in the order
the nest visits them. -/
theorem foldl_nest {σ α β : Type*} (f : σ → α → β → σ) (l₁ : List α) (l₂ : List β) (s : σ) :
    l₁.foldl (fun s a => l₂.foldl (fun s b => f s a b) s) s
      = (l₁ ×ˢ l₂).foldl (fun s p => f s p.1 p.2) s := by
  induction l₁ generalizing s with
  | nil => rfl
  | cons a l₁ ih =>
    rw [List.foldl_cons, ih, List.product_cons, List.foldl_append, List.foldl_map]

/-- A loop of guarded writes into a buffer: the cell `p` ends with value `w`
as soon as every write that hits `p` writes `w`, and either `p` held `w`
initially or some write hits `p`. -/
theorem foldl_write {α A V : Type} [DecidableEq A] (step : (A → V) → α → (A → V))
    (c : α → Prop) [DecidablePred c] (k : α → A) (v : α → V)
    (hstep : ∀ m a, step m a = if c a then store m (k a) (v a) else m)
    (p : A) (w : V) (l : List α) (m : A → V)
    (hall : ∀ b ∈ l, c b → k b = p → v b = w)
    (hsome : m p = w ∨ ∃ b ∈ l, c b ∧ k b = p) :
    l.foldl step m p = w := by
  induction l generalizing m with
  | nil =>
    rcases hsome with h | ⟨b, hb, _⟩
    · exact h
    · simp at hb
  | cons a l ih =>
    rw [List.foldl_cons]
    apply ih
    · intro b hb
      exact hall b (List.mem_cons_of_mem _ hb)
    · by_cases hit : c a ∧ k a = p
      · left
        rw [hstep, if_pos hit.1, ← hit.2, store_same]
        exact hall a (List.mem_cons_self _ _) hit.1 hit.2
      · rcases hsome with h | ⟨b, hb, hcb, hkb⟩
        · left
          rw [hstep]
          split_ifs with hc
          · have hne : p ≠ k a := fun e => hit ⟨hc, e.symm⟩
            rw [store_other _ _ hne]
            exact h
          · exact h
        · rcases List.mem_cons.mp hb with rfl | hb'
          · exact absurd ⟨hcb, hkb⟩ hit
          · right
            exact ⟨b, hb', hcb, hkb⟩

/-- A loop that rewrites in place each cell of a duplicate-free list of
cells. -/
theorem foldl_map_cells {A V : Type} [DecidableEq A] (h : A → V → V) (l : List A)
    (hnd : l.Nodup) (m : A → V) :
    l.foldl (fun m a => store m a (h a (m a))) m
      = fun a => if a ∈ l then h a (m a) else m a := by
  induction l generalizing m with
  | nil => funext a; simp
  | cons b l ih =>
    have hb : b ∉ l := (List.nodup_cons.mp hnd).1
    rw [List.foldl_cons, ih (List.nodup_cons.mp hnd).2]
    funext a
    by_cases hab : a = b
    · subst hab
      simp [hb, store_same]
    · by_cases hal : a ∈ l <;> simp [hal, hab, store_other _ _ hab]

/-- A loop that rewrites in place each cell of a duplicate-free list of cells
and accumulates the new cell values. -/
theorem foldl_map_cells_sum {A : Type} [DecidableEq A] (h : A → ℝ → ℝ) (l : List A)
    (hnd : l.Nodup) (m : A → ℝ) (s : ℝ) :
    l.foldl (fun (s : (A → ℝ) × ℝ) a =>
        (store s.1 a (h a (s.1 a)), s.2 + store s.1 a (h a (s.1 a)) a)) (m, s)
      = (fun a => if a ∈ l then h a (m a) else m a, s + (l.map (fun a => h a (m a))).sum) := by
  induction l generalizing m s with
  | nil => simp
  | cons b l ih =>
    have hb : b ∉ l := (List.nodup_cons.mp hnd).1
    rw [List.foldl_cons, ih (List.nodup_cons.mp hnd).2]
    have hmap : l.map (fun a => h a (store m b (h b (m b)) a)) = l.map (fun a => h a (m a)) := by
      apply List.map_congr_left
      intro a ha
      have hab : a ≠ b := fun e => hb (e ▸ ha)
      rw [store_other _ _ hab]
    rw [hmap, store_same, List.map_cons, List.sum_cons, add_assoc]
    congr 1
    funext a
    by_cases hab : a = b
    · subst hab
      simp [hb, store_same]
    · by_cases hal : a ∈ l <;> simp [hal, hab, store_other _ _ hab]

/-- An accumulation loop over `0 .. n-1` is a finite sum. -/
theorem foldl_add_range {K : Type} [AddCommMonoid K] (f : Nat → K) (n : Nat) (w : K) :
    (List.range n).foldl (fun w i => w + f i) w = w + ∑ i in Finset.range n, f i := by
  induction n with
  | zero => simp
  | succ n ih =>
    rw [List.range_succ, List.foldl_append, ih, Finset.sum_range_succ]
    simp [add_assoc]

/-- The sum of a list indexed by `0 .. n-1` is a finite sum. -/
theorem list_sum_range (f : Nat → ℝ) (n : Nat) :
    ((List.range n).map f).sum = ∑ i in Finset.range n, f i := by
  induction n with
  | zero => simp
  | succ n ih => rw [List.sum_range_succ, ih, Finset.sum_range_succ]

/-- The sum over the pairs of two lists is the iterated sum. -/
theorem list_sum_product {α β : Type} (g : α × β → ℝ) (l₁ : List α) (l₂ : List β) :
    ((l₁ ×ˢ l₂).map g).sum = (l₁.map (fun a => (l₂.map (fun b => g (a, b))).sum)).sum := by
  induction l₁ with
  | nil => simp
  | cons a l₁ ih =>
    rw [List.product_cons, List.map_append, List.sum_append, ih, List.map_map, List.map_cons,
      List.sum_cons]
    rfl

/-- The sum over the pairs of `0 .. n-1` is the iterated finite sum. -/
theorem list_sum_product_range (g : Nat × Nat → ℝ) (n : Nat) :
    ((List.range n ×ˢ List.range n).map g).sum
      = ∑ x in Finset.range n, ∑ y in Finset.range n, g (x, y) := by
  rw [list_sum_product, list_sum_range]
  apply Finset.sum_congr rfl
  intro x _
  rw [list_sum_range]

/-- Row-major addressing is injective on columns below the row stride. -/
theorem addr_inj {s a b c d : Nat} (hb : b < s) (hd : d < s) (h : s * a + b = s * c + d) :
    a = c ∧ b = d := by
  have hs : 0 < s := by omega
  have h1 : (s * a + b) / s = a := by
    rw [Nat.mul_add_div hs, Nat.div_eq_of_lt hb, Nat.add_zero]
  have h2 : (s * c + d) / s = c := by
    rw [Nat.mul_add_div hs, Nat.div_eq_of_lt hd, Nat.add_zero]
  have hac : a = c := by rw [← h1, ← h2, h]
  subst hac
  exact ⟨rfl, by omega⟩

/-! ## roundbanker: theorems -/

/-- The cast `(int)val` of a non-negative value is its floor. -/
theorem castInt_nonneg {K : Type} [LinearOrderedField K] [FloorRing K] (val : K)
    (h0 : 0 ≤ val) : castInt val = ⌊val⌋ := by
  simp [castInt, h0]

/-- The literal `0.5` is one half. -/
theorem half_eq {K : Type} [LinearOrderedField K] : (0.5 : K) = 1 / 2 := by norm_num

/-- A value in `(z - 1, z]` has ceiling `z`. -/
theorem ceil_eval {K : Type} [LinearOrderedField K] [FloorRing K] (val : K) (z : Int)
    (h1 : (z : K) - 1 < val) (h2 : val ≤ z) : ⌈val⌉ = z :=
  Int.ceil_eq_iff.mpr ⟨h1, h2⟩

/-- Below one half above the floor, a non-negative value is rounded down. -/
theorem roundbanker_of_lt_half {K : Type} [LinearOrderedField K] [FloorRing K] (val : K)
    (h0 : 0 ≤ val) (h : val - (⌊val⌋ : K) < 1 / 2) : roundbanker val = ⌊val⌋ := by
  unfold roundbanker
  rw [castInt_nonneg val h0, half_eq, if_pos h]

/-- C10: for a non-negative `val`, `roundbanker val` is round-half-to-even:
the floor when the fractional part is below one half, the ceiling when it is
above one half, and the even one of floor and ceiling when it is exactly one
half. -/
theorem roundbanker_nonneg {K : Type} [LinearOrderedField K] [FloorRing K] (val : K)
    (h0 : 0 ≤ val) :
    (val - (⌊val⌋ : K) < 1 / 2 → roundbanker val = ⌊val⌋)
      ∧ (1 / 2 < val - (⌊val⌋ : K) → roundbanker val = ⌈val⌉)
      ∧ (val - (⌊val⌋ : K) = 1 / 2 →
          roundbanker val = (if Even ⌊val⌋ then ⌊val⌋ else ⌈val⌉) ∧ Even (roundbanker val)) := by
  have hc := castInt_nonneg val h0
  have hf0 : (0 : Int) ≤ ⌊val⌋ := Int.floor_nonneg.mpr h0
  have htm : Int.tmod ⌊val⌋ 2 = 0 ↔ Even ⌊val⌋ := by
    rw [Int.tmod_eq_emod hf0 (by norm_num), Int.even_iff]
  refine ⟨roundbanker_of_lt_half val h0, ?_, ?_⟩
  · intro h
    unfold roundbanker
    rw [hc, half_eq, if_neg (not_lt.mpr h.le), if_pos h]
  · intro h
    have hrb : roundbanker val = (if Even ⌊val⌋ then ⌊val⌋ else ⌈val⌉) := by
      unfold roundbanker
      rw [hc, half_eq, if_neg (by rw [h]; exact lt_irrefl _),
        if_neg (by rw [h]; exact lt_irrefl _)]
      by_cases he : Even ⌊val⌋
      · rw [if_pos (htm.mpr he), if_pos he]
      · rw [if_neg (fun t => he (htm.mp t)), if_neg he]
    refine ⟨hrb, ?_⟩
    rw [hrb]
    by_cases he : Even ⌊val⌋
    · rw [if_pos he]; exact he
    · rw [if_neg he]
      have hceil : ⌈val⌉ = ⌊val⌋ + 1 := by
        rw [Int.ceil_eq_iff]
        push_cast
        constructor <;> linarith
      rw [hceil]
      exact Int.even_add_one.mpr he

/-- C10, evaluated: `roundbanker` maps 2.5 to 2, 3.5 to 4, 2.4 to 2 and 2.6
to 3. -/
theorem roundbanker_nonneg_witness :
    roundbanker (2.5 : ℚ) = 2 ∧ roundbanker (3.5 : ℚ) = 4
      ∧ roundbanker (2.4 : ℚ) = 2 ∧ roundbanker (2.6 : ℚ) = 3 :=
  ⟨((roundbanker_nonneg (2.5 : ℚ) (by norm_num)).2.2 (by norm_num)).1.trans (by norm_num),
   ((roundbanker_nonneg (3.5 : ℚ) (by norm_num)).2.2 (by norm_num)).1.trans
     (by
       have h1 : ⌊(3.5 : ℚ)⌋ = 3 := by norm_num
       have h2 : ⌈(3.5 : ℚ)⌉ = 4 := ceil_eval _ 4 (by norm_num) (by norm_num)
       rw [h1, h2]
       decide),
   ((roundbanker_nonneg (2.4 : ℚ) (by norm_num)).1 (by norm_num)).trans (by norm_num),
   ((roundbanker_nonneg (2.6 : ℚ) (by norm_num)).2.1 (by norm_num)).trans
     (ceil_eval (2.6 : ℚ) 3 (by norm_num) (by norm_num))⟩

/-! ## GaussianFilter: the kernel -/

/-- The cells (row, column) visited by a loop nest whose outer variable is the
column are pairwise distinct. -/
theorem cells_nodup (n : Nat) : ((List.range n ×ˢ List.range n).map Prod.swap).Nodup :=
  (List.Nodup.product (List.nodup_range n) (List.nodup_range n)).map Prod.swap_injective

/-- The cells visited by such a loop nest are the cells with row and column
below the bound. -/
theorem mem_cells (n : Nat) (c : Nat × Nat) :
    c ∈ (List.range n ×ˢ List.range n).map Prod.swap ↔ c.2 < n ∧ c.1 < n := by
  obtain ⟨y, x⟩ := c
  simp only [List.mem_map, List.mem_product, List.mem_range, Prod.exists, Prod.swap_prod_mk,
    Prod.mk.injEq]
  constructor
  · rintro ⟨a, b, ⟨ha, hb⟩, rfl, rfl⟩
    exact ⟨ha, hb⟩
  · rintro ⟨hx, hy⟩
    exact ⟨x, y, ⟨hx, hy⟩, rfl, rfl⟩

/-- The matrix after the first loop nest of the kernel construction. -/
theorem distances_cell (radius : Nat) (m : CvMat ℝ) (x y : Nat)
    (hx : x < GaussianFilter.length radius) (hy : y < GaussianFilter.length radius) :
    GaussianFilter.distances radius m (y, x) = point_distance ⟨x, y⟩ ⟨radius, radius⟩ := by
  have h := foldl_map_cells (fun (c : Nat × Nat) (_ : ℝ) =>
    point_distance ⟨c.2, c.1⟩ ⟨radius, radius⟩) _ (cells_nodup (GaussianFilter.length radius)) m
  rw [List.foldl_map] at h
  have e : GaussianFilter.distances radius m = _ :=
    (foldl_nest (fun (k : CvMat ℝ) (x y : Nat) =>
      store k (y, x) (point_distance ⟨x, y⟩ ⟨radius, radius⟩)) _ _ _).trans h
  rw [e]
  simp only [if_pos ((mem_cells _ (y, x)).mpr ⟨hx, hy⟩)]

/-- The matrix and the sum after the second loop nest of the kernel
construction. -/
theorem values_eq (sigma : ℝ) (radius : Nat) (k : CvMat ℝ) :
    (∀ x y, x < GaussianFilter.length radius → y < GaussianFilter.length radius →
        (GaussianFilter.values sigma radius k).1 (y, x) = gaussian (k (y, x)) 0 sigma)
      ∧ (GaussianFilter.values sigma radius k).2
          = ∑ x in Finset.range (GaussianFilter.length radius),
              ∑ y in Finset.range (GaussianFilter.length radius), gaussian (k (y, x)) 0 sigma := by
  have h := foldl_map_cells_sum (fun (_ : Nat × Nat) (v : ℝ) => gaussian v 0 sigma) _
    (cells_nodup (GaussianFilter.length radius)) k 0
  rw [List.foldl_map] at h
  have e : GaussianFilter.values sigma radius k = _ :=
    (foldl_nest (fun (s : CvMat ℝ × ℝ) (x y : Nat) =>
      (store s.1 (y, x) (gaussian (s.1 (y, x)) 0 sigma),
        s.2 + store s.1 (y, x) (gaussian (s.1 (y, x)) 0 sigma) (y, x))) _ _ _).trans h
  rw [e]
  constructor
  · intro x y hx hy
    simp only [if_pos ((mem_cells _ (y, x)).mpr ⟨hx, hy⟩)]
  · simp only [zero_add]
    rw [List.map_map, list_sum_product_range]
    rfl

/-- The matrix after the third loop nest of the kernel construction. -/
theorem normalize_cell (radius : Nat) (k : CvMat ℝ) (sum : ℝ) (x y : Nat)
    (hx : x < GaussianFilter.length radius) (hy : y < GaussianFilter.length radius) :
    GaussianFilter.normalize radius k sum (y, x) = k (y, x) / sum := by
  have h := foldl_map_cells (fun (_ : Nat × Nat) (v : ℝ) => v / sum) _
    (cells_nodup (GaussianFilter.length radius)) k
  rw [List.foldl_map] at h
  have e : GaussianFilter.normalize radius k sum = _ :=
    (foldl_nest (fun (k : CvMat ℝ) (x y : Nat) => store k (y, x) (k (y, x) / sum)) _ _ _).trans h
  rw [e]
  simp only [if_pos ((mem_cells _ (y, x)).mpr ⟨hx, hy⟩)]

/-- The normalising sum of the kernel construction is the sum of the raw
weights over all cells; it does not depend on the initial matrix. -/
theorem kernelSum_eq (sigma : ℝ) (radius : Nat) (m : CvMat ℝ) :
    GaussianFilter.kernelSum sigma radius m
      = ∑ x in Finset.range (GaussianFilter.length radius),
          ∑ y in Finset.range (GaussianFilter.length radius),
            gaussian (point_distance ⟨x, y⟩ ⟨radius, radius⟩) 0 sigma := by
  unfold GaussianFilter.kernelSum
  rw [(values_eq sigma radius _).2]
  apply Finset.sum_congr rfl
  intro x hx
  apply Finset.sum_congr rfl
  intro y hy
  rw [distances_cell radius m x y (Finset.mem_range.mp hx) (Finset.mem_range.mp hy)]

/-- Every cell of the kernel is the raw weight of the cell divided by the
normalising sum; it does not depend on the initial matrix. -/
theorem kernel_cell (sigma : ℝ) (radius : Nat) (m : CvMat ℝ) (x y : Nat)
    (hx : x < GaussianFilter.length radius) (hy : y < GaussianFilter.length radius) :
    GaussianFilter.kernel sigma radius m (y, x)
      = gaussian (point_distance ⟨x, y⟩ ⟨radius, radius⟩) 0 sigma
          / GaussianFilter.kernelSum sigma radius m := by
  unfold GaussianFilter.kernel GaussianFilter.kernelSum
  rw [normalize_cell radius _ _ x y hx hy, (values_eq sigma radius _).1 x y hx hy,
    distances_cell radius m x y hx hy]

/-- The Gaussian density is positive when `sigma` is not zero. -/
theorem gaussian_pos (x : ℝ) (mu : Int) (sigma : ℝ) (hs : sigma ≠ 0) :
    0 < gaussian x mu sigma := by
  unfold gaussian
  have h2 : 0 < 2 * Real.pi * sigma * sigma := by
    have hss : 0 < sigma * sigma := mul_self_pos.mpr hs
    have hpi : 0 < 2 * Real.pi := by positivity
    rw [mul_assoc]
    exact mul_pos hpi hss
  have h3 : 0 < Real.sqrt (2 * Real.pi * sigma * sigma) := Real.sqrt_pos.mpr h2
  exact mul_pos (one_div_pos.mpr h3) (Real.exp_pos _)

/-- The normalising sum is positive when `sigma` is not zero, so the division
by it is defined. -/
theorem kernelSum_pos (sigma : ℝ) (radius : Nat) (m : CvMat ℝ) (hs : sigma ≠ 0) :
    0 < GaussianFilter.kernelSum sigma radius m := by
  rw [kernelSum_eq]
  have hne : (Finset.range (GaussianFilter.length radius)).Nonempty := by
    rw [Finset.nonempty_range_iff]
    unfold GaussianFilter.length
    omega
  apply Finset.sum_pos _ hne
  intro x _
  apply Finset.sum_pos _ hne
  intro y _
  exact gaussian_pos _ _ _ hs

/-- The square of the distance of `(x, y)` to the centre. -/
theorem point_distance_sq (radius x y : Nat) :
    point_distance ⟨x, y⟩ ⟨radius, radius⟩ * point_distance ⟨x, y⟩ ⟨radius, radius⟩
      = ((x : ℝ) - radius) ^ 2 + ((y : ℝ) - radius) ^ 2 := by
  unfold point_distance
  rw [Real.mul_self_sqrt]
  · push_cast
    ring
  · push_cast
    nlinarith [sq_nonneg ((radius : ℝ) - x), sq_nonneg ((radius : ℝ) - y)]

/-- The raw weight of a cell as a product of a factor in `x` and a factor in
`y`. -/
theorem gaussian_point_distance (sigma : ℝ) (radius x y : Nat) :
    gaussian (point_distance ⟨x, y⟩ ⟨radius, radius⟩) 0 sigma
      = (1 / Real.sqrt (2 * Real.pi * sigma ^ 2))
          * (Real.exp (-(((x : ℝ) - radius) ^ 2) / (2 * sigma ^ 2))
              * Real.exp (-(((y : ℝ) - radius) ^ 2) / (2 * sigma ^ 2))) := by
  unfold gaussian
  rw [← Real.exp_add]
  have h1 : (2 * Real.pi * sigma * sigma) = 2 * Real.pi * sigma ^ 2 := by ring
  have h2 : (2 * sigma * sigma) = 2 * sigma ^ 2 := by ring
  have h3 : (point_distance ⟨x, y⟩ ⟨radius, radius⟩ - ((0 : Int) : ℝ))
      * (point_distance ⟨x, y⟩ ⟨radius, radius⟩ - ((0 : Int) : ℝ))
      = ((x : ℝ) - radius) ^ 2 + ((y : ℝ) - radius) ^ 2 := by
    rw [Int.cast_zero, sub_zero, point_distance_sq]
  rw [h1, h2, h3]
  congr 2
  ring

/-- The distance computed by `point_distance` is the distance of the
specification. -/
theorem point_distance_eq_spec (radius x y : Nat) :
    point_distance ⟨x, y⟩ ⟨radius, radius⟩ = spec_distance radius x y := by
  unfold point_distance spec_distance
  congr 1
  push_cast
  ring

/-- The function `gaussian` with `mu = 0` is the density of the
specification. -/
theorem gaussian_eq_spec (sigma d : ℝ) : gaussian d 0 sigma = spec_density sigma d := by
  unfold gaussian spec_density
  rw [Int.cast_zero, sub_zero]
  have h1 : (2 * Real.pi * sigma * sigma) = 2 * Real.pi * sigma ^ 2 := by ring
  have h2 : (2 * sigma * sigma) = 2 * sigma ^ 2 := by ring
  have h3 : d * d = d ^ 2 := by ring
  rw [h1, h2, h3]

/-- The side length of the kernel is `2 * radius + 1`. -/
theorem length_eq (radius : Nat) : GaussianFilter.length radius = 2 * radius + 1 := by
  unfold GaussianFilter.length
  omega

/-- The weights of the kernel sum to 1 when `sigma` is not zero. -/
theorem kernel_total (sigma : ℝ) (radius : Nat) (m : CvMat ℝ) (hs : sigma ≠ 0) :
    ∑ x in Finset.range (2 * radius + 1), ∑ y in Finset.range (2 * radius + 1),
      GaussianFilter.kernel sigma radius m (y, x) = 1 := by
  have hS : GaussianFilter.kernelSum sigma radius m ≠ 0 := (kernelSum_pos sigma radius m hs).ne'
  rw [← length_eq]
  have hcell : ∀ x ∈ Finset.range (GaussianFilter.length radius),
      ∑ y in Finset.range (GaussianFilter.length radius),
          GaussianFilter.kernel sigma radius m (y, x)
        = (∑ y in Finset.range (GaussianFilter.length radius),
            gaussian (point_distance ⟨x, y⟩ ⟨radius, radius⟩) 0 sigma)
          / GaussianFilter.kernelSum sigma radius m := by
    intro x hx
    rw [Finset.sum_div]
    apply Finset.sum_congr rfl
    intro y hy
    exact kernel_cell sigma radius m x y (Finset.mem_range.mp hx) (Finset.mem_range.mp hy)
  rw [Finset.sum_congr rfl hcell, ← Finset.sum_div, ← kernelSum_eq sigma radius m]
  exact div_self hS

/-- C6: for `sigma > 0` the kernel built by `GaussianFilter` has side length
`2 * radius + 1`, its normalising sum is not zero, and its
`(2 * radius + 1)^2` weights sum to exactly 1. -/
theorem kernel_sum_eq_one (sigma : ℝ) (radius : Nat) (m : CvMat ℝ) (hs : 0 < sigma) :
    GaussianFilter.length radius = 2 * radius + 1
      ∧ GaussianFilter.kernelSum sigma radius m ≠ 0
      ∧ ∑ x in Finset.range (2 * radius + 1), ∑ y in Finset.range (2 * radius + 1),
          GaussianFilter.kernel sigma radius m (y, x) = 1 := by
  refine ⟨?_, ?_, kernel_total sigma radius m hs.ne'⟩
  · unfold GaussianFilter.length
    omega
  · exact (kernelSum_pos sigma radius m hs.ne').ne'

/-- C6 at the constants of `main`. -/
theorem kernel_sum_eq_one_witness :
    (0 : ℝ) < 0.8475
      ∧ GaussianFilter.length 4 = 2 * 4 + 1
      ∧ GaussianFilter.kernelSum 0.8475 4 (cvCreateMat ℝ 9 9) ≠ 0
      ∧ ∑ x in Finset.range (2 * 4 + 1), ∑ y in Finset.range (2 * 4 + 1),
          GaussianFilter.kernel 0.8475 4 (cvCreateMat ℝ 9 9) (y, x) = 1 :=
  ⟨by norm_num, kernel_sum_eq_one 0.8475 4 (cvCreateMat ℝ 9 9) (by norm_num)⟩

/-- C7: the weight of the kernel built by `GaussianFilter` at a cell `(x, y)`
equals the weight at `(2 * radius - x, y)`, at `(x, 2 * radius - y)` and at
`(2 * radius - x, 2 * radius - y)`. -/
theorem kernel_symmetric (sigma : ℝ) (radius : Nat) (m : CvMat ℝ) (x y : Nat)
    (hx : x ≤ 2 * radius) (hy : y ≤ 2 * radius) :
    GaussianFilter.kernel sigma radius m (y, x)
        = GaussianFilter.kernel sigma radius m (y, 2 * radius - x)
      ∧ GaussianFilter.kernel sigma radius m (y, x)
        = GaussianFilter.kernel sigma radius m (2 * radius - y, x)
      ∧ GaussianFilter.kernel sigma radius m (y, x)
        = GaussianFilter.kernel sigma radius m (2 * radius - y, 2 * radius - x) := by
  have hL := length_eq radius
  have hd : ∀ a b : Nat, a ≤ 2 * radius → b ≤ 2 * radius →
      point_distance ⟨a, b⟩ ⟨radius, radius⟩
          = point_distance ⟨(2 * radius - a : Nat), b⟩ ⟨radius, radius⟩
        ∧ point_distance ⟨a, b⟩ ⟨radius, radius⟩
          = point_distance ⟨a, (2 * radius - b : Nat)⟩ ⟨radius, radius⟩ := by
    intro a b ha hb
    unfold point_distance
    constructor
    · congr 1
      push_cast [Nat.cast_sub ha]
      ring
    · congr 1
      push_cast [Nat.cast_sub hb]
      ring
  have hx' : 2 * radius - x ≤ 2 * radius := Nat.sub_le _ _
  have hy' : 2 * radius - y ≤ 2 * radius := Nat.sub_le _ _
  rw [kernel_cell sigma radius m x y (by omega) (by omega),
    kernel_cell sigma radius m (2 * radius - x) y (by omega) (by omega),
    kernel_cell sigma radius m x (2 * radius - y) (by omega) (by omega),
    kernel_cell sigma radius m (2 * radius - x) (2 * radius - y) (by omega) (by omega),
    ← (hd x (2 * radius - y) hx hy').1, ← (hd x y hx hy).1, ← (hd x y hx hy).2]
  exact ⟨rfl, rfl, rfl⟩

/-- C7 at the constants of `main`, for the corner cell. -/
theorem kernel_symmetric_witness :
    0 ≤ 2 * 4
      ∧ GaussianFilter.kernel 0.8475 4 (cvCreateMat ℝ 9 9) (0, 0)
        = GaussianFilter.kernel 0.8475 4 (cvCreateMat ℝ 9 9) (0, 2 * 4 - 0)
      ∧ GaussianFilter.kernel 0.8475 4 (cvCreateMat ℝ 9 9) (0, 0)
        = GaussianFilter.kernel 0.8475 4 (cvCreateMat ℝ 9 9) (2 * 4 - 0, 0)
      ∧ GaussianFilter.kernel 0.8475 4 (cvCreateMat ℝ 9 9) (0, 0)
        = GaussianFilter.kernel 0.8475 4 (cvCreateMat ℝ 9 9) (2 * 4 - 0, 2 * 4 - 0) :=
  ⟨by decide,
   kernel_symmetric 0.8475 4 (cvCreateMat ℝ 9 9) 0 0 (by decide) (by decide)⟩

/-- C8: the weight of the kernel built by `GaussianFilter` at a cell `(x, y)`
with `x, y ≤ 2 * radius` is `g(d(x, y))` divided by the sum of `g(d(x', y'))`
over all cells, `d` the Euclidean distance to the centre and `g` the Gaussian
density of the specification. -/
theorem kernel_formula (sigma : ℝ) (radius : Nat) (m : CvMat ℝ) (x y : Nat)
    (hx : x ≤ 2 * radius) (hy : y ≤ 2 * radius) :
    GaussianFilter.kernel sigma radius m (y, x)
      = spec_density sigma (spec_distance radius x y)
          / ∑ x' in Finset.range (2 * radius + 1), ∑ y' in Finset.range (2 * radius + 1),
              spec_density sigma (spec_distance radius x' y') := by
  have hL := length_eq radius
  rw [kernel_cell sigma radius m x y (by omega) (by omega), kernelSum_eq, hL]
  simp only [point_distance_eq_spec, gaussian_eq_spec]

/-- C8 at the constants of `main`, for the cell next to the centre. -/
theorem kernel_formula_witness :
    3 ≤ 2 * 4 ∧ 4 ≤ 2 * 4
      ∧ GaussianFilter.kernel 0.8475 4 (cvCreateMat ℝ 9 9) (4, 3)
        = spec_density 0.8475 (spec_distance 4 3 4)
            / ∑ x' in Finset.range (2 * 4 + 1), ∑ y' in Finset.range (2 * 4 + 1),
                spec_density 0.8475 (spec_distance 4 x' y') :=
  ⟨by decide, by decide,
   kernel_formula 0.8475 4 (cvCreateMat ℝ 9 9) 3 4 (by decide) (by decide)⟩

/-- C9: for `sigma > 0` the radially built, normalised kernel is the separable
product kernel, `weight(x, y) = k(x) * k(y)`. -/
theorem kernel_separable (sigma : ℝ) (radius : Nat) (m : CvMat ℝ) (hs : 0 < sigma) (x y : Nat)
    (hx : x ≤ 2 * radius) (hy : y ≤ 2 * radius) :
    GaussianFilter.kernel sigma radius m (y, x)
      = separable_weight sigma radius x * separable_weight sigma radius y := by
  have hL := length_eq radius
  rw [kernel_cell sigma radius m x y (by omega) (by omega), kernelSum_eq, hL]
  simp only [gaussian_point_distance]
  unfold separable_weight
  have hc : (1 / Real.sqrt (2 * Real.pi * sigma ^ 2)) ≠ 0 := by
    have : 0 < 2 * Real.pi * sigma ^ 2 := by positivity
    exact (one_div_pos.mpr (Real.sqrt_pos.mpr this)).ne'
  have hE : (∑ j in Finset.range (2 * radius + 1),
      Real.exp (-(((j : ℝ) - radius) ^ 2) / (2 * sigma ^ 2))) ≠ 0 := by
    apply ne_of_gt
    apply Finset.sum_pos
    · intro j _
      exact Real.exp_pos _
    · rw [Finset.nonempty_range_iff]
      omega
  have hsum : (∑ x' in Finset.range (2 * radius + 1), ∑ y' in Finset.range (2 * radius + 1),
      (1 / Real.sqrt (2 * Real.pi * sigma ^ 2))
        * (Real.exp (-(((x' : ℝ) - radius) ^ 2) / (2 * sigma ^ 2))
            * Real.exp (-(((y' : ℝ) - radius) ^ 2) / (2 * sigma ^ 2))))
      = (1 / Real.sqrt (2 * Real.pi * sigma ^ 2))
          * ((∑ j in Finset.range (2 * radius + 1),
                Real.exp (-(((j : ℝ) - radius) ^ 2) / (2 * sigma ^ 2)))
              * (∑ j in Finset.range (2 * radius + 1),
                Real.exp (-(((j : ℝ) - radius) ^ 2) / (2 * sigma ^ 2)))) := by
    rw [Finset.sum_mul_sum, Finset.mul_sum]
    apply Finset.sum_congr rfl
    intro a _
    rw [Finset.mul_sum]
  rw [hsum]
  field_simp

/-- C9 at the constants of `main`, for the corner cell. -/
theorem kernel_separable_witness :
    (0 : ℝ) < 0.8475 ∧ 0 ≤ 2 * 4
      ∧ GaussianFilter.kernel 0.8475 4 (cvCreateMat ℝ 9 9) (0, 0)
        = separable_weight 0.8475 4 0 * separable_weight 0.8475 4 0 :=
  ⟨by norm_num, by decide,
   kernel_separable 0.8475 4 (cvCreateMat ℝ 9 9) (by norm_num) 0 0 (by decide) (by decide)⟩

/-! ## GaussianFilter: the filter step -/

/-- The second component of a loop on a pair state, when the body updates it
independently of the first component. -/
theorem foldl_snd {σ τ α : Type} (step : σ × τ → α → σ × τ) (g : τ → α → τ)
    (h : ∀ s a, (step s a).2 = g s.2 a) (l : List α) (s : σ × τ) :
    (l.foldl step s).2 = l.foldl g s.2 := by
  induction l generalizing s with
  | nil => rfl
  | cons a l ih => rw [List.foldl_cons, ih, h, List.foldl_cons]

/-- After "get surrounding pixels" every cell of the window holds the tap of
the specification, whatever `area` held before. -/
theorem surround_cell (radius : Nat) (src : IplImage) (y x : Nat) (area : CvMat uchar)
    (x2 y2 : Nat) (hx2 : x2 < GaussianFilter.length radius)
    (hy2 : y2 < GaussianFilter.length radius) :
    GaussianFilter.surround radius src y x area (y2, x2) = spec_tap src radius x y x2 y2 := by
  have e : GaussianFilter.surround radius src y x area
      = (List.range (GaussianFilter.length radius)
          ×ˢ List.range (GaussianFilter.length radius)).foldl
          (fun (a : CvMat uchar) (p : Nat × Nat) =>
            if (x : Int) - (radius : Int) + (p.2 : Int) ≥ 0
                ∧ (x : Int) - (radius : Int) + (p.2 : Int) < (src.width : Int)
                ∧ (y : Int) - (radius : Int) + (p.1 : Int) ≥ 0
                ∧ (y : Int) - (radius : Int) + (p.1 : Int) < (src.height : Int) then
              store a (p.1, p.2)
                (src.imageData (src.widthStep * ((y : Int) - (radius : Int) + (p.1 : Int)).toNat
                  + ((x : Int) - (radius : Int) + (p.2 : Int)).toNat))
            else
              store a (p.1, p.2) (src.imageData (src.widthStep * y + x))) area :=
    foldl_nest (fun (a : CvMat uchar) (y2 x2 : Nat) =>
      if (x : Int) - (radius : Int) + (x2 : Int) ≥ 0
          ∧ (x : Int) - (radius : Int) + (x2 : Int) < (src.width : Int)
          ∧ (y : Int) - (radius : Int) + (y2 : Int) ≥ 0
          ∧ (y : Int) - (radius : Int) + (y2 : Int) < (src.height : Int) then
        store a (y2, x2)
          (src.imageData (src.widthStep * ((y : Int) - (radius : Int) + (y2 : Int)).toNat
            + ((x : Int) - (radius : Int) + (x2 : Int)).toNat))
      else
        store a (y2, x2) (src.imageData (src.widthStep * y + x))) _ _ _
  rw [e]
  refine foldl_write _ (fun _ => True) (fun p => p) (fun p => spec_tap src radius x y p.2 p.1)
    ?_ _ _ _ _ ?_ ?_
  · intro m a
    rw [if_pos trivial]
    show _ = store m a (spec_tap src radius x y a.2 a.1)
    unfold spec_tap IplImage.pixel
    simp only [ge_iff_le]
    split_ifs <;> rfl
  · rintro b _ _ rfl
    rfl
  · right
    refine ⟨(y2, x2), ?_, trivial, rfl⟩
    rw [List.mem_product, List.mem_range, List.mem_range]
    exact ⟨hy2, hx2⟩

/-- The weighted sum as a finite double sum. -/
theorem wsum_eq {K : Type} [LinearOrderedField K] (radius : Nat) (gaussian_kernel : CvMat K)
    (area : CvMat uchar) :
    GaussianFilter.wsum radius gaussian_kernel area
      = ∑ x2 in Finset.range (GaussianFilter.length radius),
          ∑ y2 in Finset.range (GaussianFilter.length radius),
            ((area (y2, x2)).val : K) * gaussian_kernel (y2, x2) := by
  unfold GaussianFilter.wsum
  simp only [foldl_add_range, zero_add]

/-- The weighted sum for the destination pixel `(x, y)`: it depends on the
source and the kernel only. -/
theorem wsum_surround {K : Type} [LinearOrderedField K] (radius : Nat)
    (gaussian_kernel : CvMat K) (src : IplImage) (y x : Nat) (area : CvMat uchar) :
    GaussianFilter.wsum radius gaussian_kernel (GaussianFilter.surround radius src y x area)
      = ∑ x2 in Finset.range (2 * radius + 1), ∑ y2 in Finset.range (2 * radius + 1),
          ((spec_tap src radius x y x2 y2).val : K) * gaussian_kernel (y2, x2) := by
  rw [wsum_eq, length_eq]
  apply Finset.sum_congr rfl
  intro x2 hx2
  apply Finset.sum_congr rfl
  intro y2 hy2
  rw [surround_cell radius src y x area x2 y2
    (by rw [length_eq]; exact Finset.mem_range.mp hx2)
    (by rw [length_eq]; exact Finset.mem_range.mp hy2)]

/-- The buffer the filter step leaves in `dst`, as one loop of stores over the
pixels (row, column) of `src`. -/
theorem apply_imageData {K : Type} [LinearOrderedField K] [FloorRing K] (radius : Nat)
    (gaussian_kernel : CvMat K) (area : CvMat uchar) (src dst : IplImage) :
    (GaussianFilter.apply radius gaussian_kernel area src dst).imageData
      = (List.range src.height ×ˢ List.range src.width).foldl
          (fun mem p => store mem (dst.widthStep * p.1 + p.2)
            (toUchar (roundbanker
              (∑ x2 in Finset.range (2 * radius + 1), ∑ y2 in Finset.range (2 * radius + 1),
                ((spec_tap src radius p.2 p.1 x2 y2).val : K) * gaussian_kernel (y2, x2)))))
          dst.imageData := by
  have e : (GaussianFilter.apply radius gaussian_kernel area src dst).imageData
      = ((List.range src.height ×ˢ List.range src.width).foldl
          (fun (s : CvMat uchar × (Nat → uchar)) (p : Nat × Nat) =>
            (GaussianFilter.surround radius src p.1 p.2 s.1,
              store s.2 (dst.widthStep * p.1 + p.2)
                (toUchar (roundbanker (GaussianFilter.wsum radius gaussian_kernel
                  (GaussianFilter.surround radius src p.1 p.2 s.1))))))
          (area, dst.imageData)).2 :=
    congrArg Prod.snd (foldl_nest (fun (s : CvMat uchar × (Nat → uchar)) (y x : Nat) =>
      (GaussianFilter.surround radius src y x s.1,
        store s.2 (dst.widthStep * y + x)
          (toUchar (roundbanker (GaussianFilter.wsum radius gaussian_kernel
            (GaussianFilter.surround radius src y x s.1)))))) _ _ _)
  rw [e]
  apply foldl_snd
  intro s a
  simp only [wsum_surround]

/-- The sample the filter step leaves at the destination pixel `(x, y)`, for
any kernel and a destination whose rows hold at least `width` samples. -/
theorem apply_pixel {K : Type} [LinearOrderedField K] [FloorRing K] (radius : Nat)
    (gaussian_kernel : CvMat K) (area : CvMat uchar) (src dst : IplImage)
    (hstep : src.width ≤ dst.widthStep) (x y : Nat) (hx : x < src.width)
    (hy : y < src.height) :
    (GaussianFilter.apply radius gaussian_kernel area src dst).pixel y x
      = toUchar (roundbanker
          (∑ x2 in Finset.range (2 * radius + 1), ∑ y2 in Finset.range (2 * radius + 1),
            ((spec_tap src radius x y x2 y2).val : K) * gaussian_kernel (y2, x2))) := by
  unfold IplImage.pixel
  rw [apply_imageData]
  have hws : (GaussianFilter.apply radius gaussian_kernel area src dst).widthStep
      = dst.widthStep := rfl
  rw [hws]
  refine foldl_write _ (fun _ => True) (fun p => dst.widthStep * p.1 + p.2)
    (fun p => toUchar (roundbanker
      (∑ x2 in Finset.range (2 * radius + 1), ∑ y2 in Finset.range (2 * radius + 1),
        ((spec_tap src radius p.2 p.1 x2 y2).val : K) * gaussian_kernel (y2, x2))))
    ?_ _ _ _ _ ?_ ?_
  · intro m a
    rw [if_pos trivial]
  · rintro ⟨b1, b2⟩ hmem _ hk
    rw [List.mem_product, List.mem_range, List.mem_range] at hmem
    simp only at hk
    obtain ⟨e1, e2⟩ := addr_inj (lt_of_lt_of_le hmem.2 hstep) (lt_of_lt_of_le hx hstep) hk
    simp only [e1, e2]
  · right
    refine ⟨(y, x), ?_, trivial, rfl⟩
    rw [List.mem_product, List.mem_range, List.mem_range]
    exact ⟨hy, hx⟩

/-- The value `roundbanker` returns is the floor or the ceiling of its
argument. -/
theorem roundbanker_floor_or_ceil {K : Type} [LinearOrderedField K] [FloorRing K] (val : K) :
    roundbanker val = ⌊val⌋ ∨ roundbanker val = ⌈val⌉ := by
  unfold roundbanker
  split_ifs
  · exact Or.inl rfl
  · exact Or.inr rfl
  · exact Or.inl rfl
  · exact Or.inr rfl

/-- On a value in `[0, 255]` `roundbanker` returns an integer in `0 .. 255`. -/
theorem roundbanker_range {K : Type} [LinearOrderedField K] [FloorRing K] (val : K)
    (h0 : 0 ≤ val) (h1 : val ≤ 255) : 0 ≤ roundbanker val ∧ roundbanker val ≤ 255 := by
  have hf0 : (0 : Int) ≤ ⌊val⌋ := Int.floor_nonneg.mpr h0
  have hfc : ⌊val⌋ ≤ ⌈val⌉ := Int.floor_le_ceil val
  have hc1 : ⌈val⌉ ≤ 255 := Int.ceil_le.mpr (by exact_mod_cast h1)
  rcases roundbanker_floor_or_ceil val with h | h <;> rw [h] <;> constructor <;> omega

/-- An integer in `0 .. 255` is stored in a `uchar` unchanged. -/
theorem toUchar_val_of_range (z : Int) (h0 : 0 ≤ z) (h1 : z ≤ 255) :
    ((toUchar z).val : Int) = z := by
  unfold toUchar
  have e : (z % 256).toNat = z.toNat := by
    rw [Int.emod_eq_of_lt h0 (by omega)]
  rw [e, Fin.ofNat]
  simp only []
  omega

/-- The function `roundbanker` returns a natural number unchanged. -/
theorem roundbanker_natCast {K : Type} [LinearOrderedField K] [FloorRing K] (n : Nat) :
    roundbanker (n : K) = n := by
  have h := roundbanker_of_lt_half (n : K) (Nat.cast_nonneg n)
  have hf : ⌊(n : K)⌋ = n := Int.floor_natCast n
  rw [hf] at h
  apply h
  simp

/-- A sample converted to `int` and back to `uchar` is unchanged. -/
theorem toUchar_val (v : uchar) : toUchar (v.val : Int) = v := by
  apply Fin.ext
  have h := toUchar_val_of_range (v.val : Int) (by omega) (by omega)
  exact_mod_cast h

/-! ## GaussianFilter: theorems on the filter step -/

/-- The weights of the kernel are not negative when `sigma` is not zero. -/
theorem kernel_nonneg (sigma : ℝ) (radius : Nat) (m : CvMat ℝ) (hs : sigma ≠ 0) (x y : Nat)
    (hx : x < 2 * radius + 1) (hy : y < 2 * radius + 1) :
    0 ≤ GaussianFilter.kernel sigma radius m (y, x) := by
  rw [kernel_cell sigma radius m x y (by rw [length_eq]; exact hx) (by rw [length_eq]; exact hy)]
  exact (div_pos (gaussian_pos _ _ _ hs) (kernelSum_pos sigma radius m hs)).le

/-- With weights that are not negative and sum to 1, the sum `S` lies in
`[0, 255]`. -/
theorem spec_wsum_range {K : Type} [LinearOrderedField K] (src : IplImage) (radius : Nat)
    (kernel : CvMat K) (x y : Nat)
    (hk0 : ∀ x2 y2, x2 < 2 * radius + 1 → y2 < 2 * radius + 1 → 0 ≤ kernel (y2, x2))
    (hk1 : ∑ x2 in Finset.range (2 * radius + 1), ∑ y2 in Finset.range (2 * radius + 1),
      kernel (y2, x2) = 1) :
    0 ≤ spec_wsum src radius kernel x y ∧ spec_wsum src radius kernel x y ≤ 255 := by
  unfold spec_wsum
  constructor
  · apply Finset.sum_nonneg
    intro x2 hx2
    apply Finset.sum_nonneg
    intro y2 hy2
    exact mul_nonneg (Nat.cast_nonneg _)
      (hk0 x2 y2 (Finset.mem_range.mp hx2) (Finset.mem_range.mp hy2))
  · have hle : ∑ x2 in Finset.range (2 * radius + 1), ∑ y2 in Finset.range (2 * radius + 1),
        ((spec_tap src radius x y x2 y2).val : K) * kernel (y2, x2)
        ≤ ∑ x2 in Finset.range (2 * radius + 1), ∑ y2 in Finset.range (2 * radius + 1),
          255 * kernel (y2, x2) := by
      apply Finset.sum_le_sum
      intro x2 hx2
      apply Finset.sum_le_sum
      intro y2 hy2
      apply mul_le_mul_of_nonneg_right _
        (hk0 x2 y2 (Finset.mem_range.mp hx2) (Finset.mem_range.mp hy2))
      have hv : (spec_tap src radius x y x2 y2).val ≤ 255 := by omega
      exact_mod_cast hv
    refine le_trans hle (le_of_eq ?_)
    simp only [← Finset.mul_sum]
    rw [hk1, mul_one]

/-- On a raster whose samples all equal `v`, every tap is `v`. -/
theorem spec_tap_constant (src : IplImage) (radius : Nat) (v : uchar)
    (hsrc : ∀ y x, y < src.height → x < src.width → src.pixel y x = v) (x y x2 y2 : Nat)
    (hx : x < src.width) (hy : y < src.height) : spec_tap src radius x y x2 y2 = v := by
  unfold spec_tap
  split_ifs with h
  · exact hsrc _ _ (by omega) (by omega)
  · exact hsrc y x hy hx

/-- The filter step with a kernel whose weights sum to 1 leaves the value `v`
at every pixel of a raster whose samples all equal `v`. -/
theorem apply_constant {K : Type} [LinearOrderedField K] [FloorRing K] (radius : Nat)
    (gaussian_kernel : CvMat K) (area : CvMat uchar) (src dst : IplImage) (v : uchar)
    (hk1 : ∑ x2 in Finset.range (2 * radius + 1), ∑ y2 in Finset.range (2 * radius + 1),
      gaussian_kernel (y2, x2) = 1)
    (hsrc : ∀ y x, y < src.height → x < src.width → src.pixel y x = v)
    (hstep : src.width ≤ dst.widthStep) (x y : Nat) (hx : x < src.width)
    (hy : y < src.height) :
    (GaussianFilter.apply radius gaussian_kernel area src dst).pixel y x = v := by
  rw [apply_pixel radius gaussian_kernel area src dst hstep x y hx hy]
  have hS : (∑ x2 in Finset.range (2 * radius + 1), ∑ y2 in Finset.range (2 * radius + 1),
      ((spec_tap src radius x y x2 y2).val : K) * gaussian_kernel (y2, x2))
      = ((v.val : Nat) : K) := by
    simp only [spec_tap_constant src radius v hsrc x y _ _ hx hy, ← Finset.mul_sum]
    rw [hk1, mul_one]
  rw [hS, roundbanker_natCast]
  exact toUchar_val v

/-- The exact-arithmetic `GaussianFilter` is `Rounded.GaussianFilter` in the
arithmetic without rounding. -/
theorem rounded_exact (src dst : IplImage) (sigma : ℝ) (radius : Nat) :
    Rounded.GaussianFilter FloatOps.exact src dst sigma radius
      = GaussianFilter src dst sigma radius :=
  rfl

/-- The loops over the pixels, each storing a value `v` that depends on the
pixel only: the cell of the pixel `(x, y)` ends with `v (y, x)` when the rows
hold at least `width` bytes. -/
theorem pixel_loop_get (height width step : Nat) (v : Nat × Nat → uchar) (mem : Nat → uchar)
    (hstep : width ≤ step) (x y : Nat) (hx : x < width) (hy : y < height) :
    (List.range height ×ˢ List.range width).foldl
        (fun m p => store m (step * p.1 + p.2) (v p)) mem (step * y + x)
      = v (y, x) := by
  refine foldl_write _ (fun _ => True) (fun p => step * p.1 + p.2) v ?_ _ _ _ _ ?_ ?_
  · intro m a
    rw [if_pos trivial]
  · rintro ⟨b1, b2⟩ hmem _ hk
    rw [List.mem_product, List.mem_range, List.mem_range] at hmem
    simp only at hk
    obtain ⟨e1, e2⟩ := addr_inj (lt_of_lt_of_le hmem.2 hstep) (lt_of_lt_of_le hx hstep) hk
    rw [e1, e2]
  · right
    refine ⟨(y, x), ?_, trivial, rfl⟩
    rw [List.mem_product, List.mem_range, List.mem_range]
    exact ⟨hy, hx⟩

/-- The loops over the pixels leave the cells of a row at the columns from
`width` up to the row stride as they were. -/
theorem pixel_loop_frame (height width step : Nat) (v : Nat × Nat → uchar) (mem : Nat → uchar)
    (x y : Nat) (hx : width ≤ x) (hxs : x < step) :
    (List.range height ×ˢ List.range width).foldl
        (fun m p => store m (step * p.1 + p.2) (v p)) mem (step * y + x)
      = mem (step * y + x) := by
  refine foldl_write _ (fun _ => True) (fun p => step * p.1 + p.2) v ?_ _ _ _ _ ?_ (Or.inl rfl)
  · intro m a
    rw [if_pos trivial]
  · rintro ⟨b1, b2⟩ hmem _ hk
    rw [List.mem_product, List.mem_range, List.mem_range] at hmem
    simp only at hk
    have hb2 : b2 < step := by omega
    obtain ⟨_, e2⟩ := addr_inj hb2 hxs hk
    omega

/-- In the arithmetic of the program, the weighted sum for the destination
pixel `(x, y)` is the sum `S` accumulated over the taps of the specification,
whatever the scratch matrix held before. -/
theorem rounded_wsum_surround {K : Type} [LinearOrderedField K] (ops : FloatOps K)
    (radius : Nat) (gaussian_kernel : CvMat K) (src : IplImage) (y x : Nat)
    (area : CvMat uchar) :
    Rounded.GaussianFilter.wsum ops radius gaussian_kernel
        (GaussianFilter.surround radius src y x area)
      = Rounded.spec_wsum ops src radius gaussian_kernel x y := by
  unfold Rounded.GaussianFilter.wsum Rounded.spec_wsum
  rw [length_eq]
  apply List.foldl_ext
  intro w x2 hx2
  apply List.foldl_ext
  intro w2 y2 hy2
  rw [surround_cell radius src y x area x2 y2
    (by rw [length_eq]; exact List.mem_range.mp hx2)
    (by rw [length_eq]; exact List.mem_range.mp hy2)]

/-- In the arithmetic of the program, the buffer the filter step leaves in
`dst`, as one loop of stores over the pixels (row, column) of `src`. -/
theorem rounded_apply_imageData {K : Type} [LinearOrderedField K] [FloorRing K]
    (ops : FloatOps K) (radius : Nat) (gaussian_kernel : CvMat K) (area : CvMat uchar)
    (src dst : IplImage) :
    (Rounded.GaussianFilter.apply ops radius gaussian_kernel area src dst).imageData
      = (List.range src.height ×ˢ List.range src.width).foldl
          (fun mem p => store mem (dst.widthStep * p.1 + p.2)
            (toUchar (roundbanker (Rounded.spec_wsum ops src radius gaussian_kernel p.2 p.1))))
          dst.imageData := by
  have e : (Rounded.GaussianFilter.apply ops radius gaussian_kernel area src dst).imageData
      = ((List.range src.height ×ˢ List.range src.width).foldl
          (fun (s : CvMat uchar × (Nat → uchar)) (p : Nat × Nat) =>
            (GaussianFilter.surround radius src p.1 p.2 s.1,
              store s.2 (dst.widthStep * p.1 + p.2)
                (toUchar (roundbanker (Rounded.GaussianFilter.wsum ops radius gaussian_kernel
                  (GaussianFilter.surround radius src p.1 p.2 s.1))))))
          (area, dst.imageData)).2 :=
    congrArg Prod.snd (foldl_nest (fun (s : CvMat uchar × (Nat → uchar)) (y x : Nat) =>
      (GaussianFilter.surround radius src y x s.1,
        store s.2 (dst.widthStep * y + x)
          (toUchar (roundbanker (Rounded.GaussianFilter.wsum ops radius gaussian_kernel
            (GaussianFilter.surround radius src y x s.1)))))) _ _ _)
  rw [e]
  apply foldl_snd
  intro s a
  simp only [rounded_wsum_surround]

/-- C3: in the arithmetic of the program (a kernel of `float` cells, sums and
products in `double`, whatever their rounding), for a destination whose rows
hold at least `width` samples and a destination pixel `(x, y)` inside the
raster, `GaussianFilter` writes `roundbanker(S)` converted to `uchar`, where
`S` is the sum over all window positions `(x2, y2)` of `tap * kernel`,
accumulated in the order of the loops, and the tap is the source sample at
`(x - radius + x2, y - radius + y2)` inside the raster and the centre sample
`src(x, y)` outside; the conversion keeps every value in `0 .. 255`. -/
theorem GaussianFilter_stores_roundbanker {K : Type} [LinearOrderedField K] [FloorRing K]
    (ops : FloatOps K) (src dst : IplImage) (sigma : K) (radius : Nat)
    (hstep : src.width ≤ dst.widthStep) (x y : Nat) (hx : x < src.width)
    (hy : y < src.height) :
    (Rounded.GaussianFilter ops src dst sigma radius).pixel y x
        = toUchar (roundbanker (Rounded.spec_wsum ops src radius
            (Rounded.GaussianFilter.kernel ops sigma radius
              (cvCreateMat K (GaussianFilter.length radius) (GaussianFilter.length radius)))
            x y))
      ∧ (0 ≤ roundbanker (Rounded.spec_wsum ops src radius
            (Rounded.GaussianFilter.kernel ops sigma radius
              (cvCreateMat K (GaussianFilter.length radius) (GaussianFilter.length radius)))
            x y)
          ∧ roundbanker (Rounded.spec_wsum ops src radius
            (Rounded.GaussianFilter.kernel ops sigma radius
              (cvCreateMat K (GaussianFilter.length radius) (GaussianFilter.length radius)))
            x y) ≤ 255 →
          (((Rounded.GaussianFilter ops src dst sigma radius).pixel y x).val : Int)
            = roundbanker (Rounded.spec_wsum ops src radius
                (Rounded.GaussianFilter.kernel ops sigma radius
                  (cvCreateMat K (GaussianFilter.length radius) (GaussianFilter.length radius)))
                x y)) := by
  have hpix : (Rounded.GaussianFilter ops src dst sigma radius).pixel y x
      = toUchar (roundbanker (Rounded.spec_wsum ops src radius
          (Rounded.GaussianFilter.kernel ops sigma radius
            (cvCreateMat K (GaussianFilter.length radius) (GaussianFilter.length radius)))
          x y)) := by
    unfold Rounded.GaussianFilter IplImage.pixel
    rw [rounded_apply_imageData]
    exact pixel_loop_get src.height src.width dst.widthStep
      (fun p => toUchar (roundbanker (Rounded.spec_wsum ops src radius
        (Rounded.GaussianFilter.kernel ops sigma radius
          (cvCreateMat K (GaussianFilter.length radius) (GaussianFilter.length radius)))
        p.2 p.1)))
      dst.imageData hstep x y hx hy
  refine ⟨hpix, ?_⟩
  intro hb
  rw [hpix]
  exact toUchar_val_of_range _ hb.1 hb.2

/-- C3 at the corner pixel of a 3 x 3 raster, whose window leaves the raster,
with the constants of `main`, in the arithmetic without rounding. -/
theorem GaussianFilter_stores_roundbanker_witness :
    sample3x3.width ≤ blank3x3.widthStep ∧ 0 < sample3x3.width ∧ 0 < sample3x3.height
      ∧ (Rounded.GaussianFilter FloatOps.exact sample3x3 blank3x3 0.8475 4).pixel 0 0
          = toUchar (roundbanker (Rounded.spec_wsum FloatOps.exact sample3x3 4
              (Rounded.GaussianFilter.kernel FloatOps.exact 0.8475 4
                (cvCreateMat ℝ (GaussianFilter.length 4) (GaussianFilter.length 4)))
              0 0)) :=
  ⟨by decide, by decide, by decide,
   (GaussianFilter_stores_roundbanker FloatOps.exact sample3x3 blank3x3 0.8475 4 (by decide)
     0 0 (by decide) (by decide)).1⟩

/-- C4: on a raster whose samples all equal `v`, the filter step with any
kernel whose weights sum to 1, and `GaussianFilter` with any `sigma > 0`, leave
`v` at every pixel, the pixels whose window leaves the raster included. -/
theorem constant_raster_fixed_point {K : Type} [LinearOrderedField K] [FloorRing K]
    (radius : Nat) (src dst : IplImage) (v : uchar)
    (hsrc : ∀ y x, y < src.height → x < src.width → src.pixel y x = v)
    (hstep : src.width ≤ dst.widthStep) (x y : Nat) (hx : x < src.width)
    (hy : y < src.height) :
    (∀ (gaussian_kernel : CvMat K) (area : CvMat uchar),
        ∑ x2 in Finset.range (2 * radius + 1), ∑ y2 in Finset.range (2 * radius + 1),
          gaussian_kernel (y2, x2) = 1 →
        (GaussianFilter.apply radius gaussian_kernel area src dst).pixel y x = v)
      ∧ (∀ sigma : ℝ, 0 < sigma → (GaussianFilter src dst sigma radius).pixel y x = v) := by
  constructor
  · intro gaussian_kernel area hk1
    exact apply_constant radius gaussian_kernel area src dst v hk1 hsrc hstep x y hx hy
  · intro sigma hs
    unfold GaussianFilter
    exact apply_constant radius _ _ src dst v (kernel_total sigma radius _ hs.ne') hsrc hstep
      x y hx hy

/-- C4 at the corner pixel of the 10 x 10 raster of value 200. -/
theorem constant_raster_fixed_point_witness :
    (∀ y x, y < constant10x10.height → x < constant10x10.width →
        constant10x10.pixel y x = 200)
      ∧ constant10x10.width ≤ (cvCreateImage 10 10 8 1 (fun _ => 0)).widthStep
      ∧ 0 < constant10x10.width ∧ 0 < constant10x10.height
      ∧ (∀ (gaussian_kernel : CvMat ℚ) (area : CvMat uchar),
          ∑ x2 in Finset.range (2 * 4 + 1), ∑ y2 in Finset.range (2 * 4 + 1),
            gaussian_kernel (y2, x2) = 1 →
          (GaussianFilter.apply 4 gaussian_kernel area constant10x10
            (cvCreateImage 10 10 8 1 (fun _ => 0))).pixel 0 0 = 200)
      ∧ (∀ sigma : ℝ, 0 < sigma →
          (GaussianFilter constant10x10 (cvCreateImage 10 10 8 1 (fun _ => 0)) sigma 4).pixel 0 0
            = 200) :=
  ⟨fun _ _ _ _ => rfl, by decide, by decide, by decide,
   constant_raster_fixed_point 4 constant10x10 (cvCreateImage 10 10 8 1 (fun _ => 0)) 200
     (fun _ _ _ _ => rfl) (by decide) 0 0 (by decide) (by decide)⟩

/-! ## DecimateImage: theorems -/

/-- The buffer `DecimateImage` leaves in `dst`, as one loop over the pairs
(row, column) of `src`. -/
theorem DecimateImage_imageData (src dst : IplImage) :
    (DecimateImage src dst).imageData
      = (List.range src.height ×ˢ List.range src.width).foldl
          (fun mem p =>
            if p.1 % 2 = 1 then
              (if p.2 % 2 = 1 then
                store mem (dst.widthStep * (p.1 / 2) + p.2 / 2)
                  (src.imageData (src.widthStep * p.1 + p.2))
              else mem)
            else mem) dst.imageData := by
  unfold DecimateImage IplImage.withData
  simp only [foldl_guard]
  exact foldl_nest (fun mem y x =>
    if y % 2 = 1 then
      (if x % 2 = 1 then
        store mem (dst.widthStep * (y / 2) + x / 2)
          (src.imageData (src.widthStep * y + x))
      else mem)
    else mem) _ _ _

/-- The cell of the destination buffer for (row `i`, column `j`) after the
loop of `DecimateImage`, for a row stride `step` of at least `W / 2`. -/
theorem decimate_fold_get (src : IplImage) (step : Nat) (mem : Nat → uchar)
    (hstep : src.width / 2 ≤ step) (i j : Nat) (hi : i < src.height / 2)
    (hj : j < src.width / 2) :
    (List.range src.height ×ˢ List.range src.width).foldl
        (fun mem p =>
          if p.1 % 2 = 1 then
            (if p.2 % 2 = 1 then
              store mem (step * (p.1 / 2) + p.2 / 2) (src.imageData (src.widthStep * p.1 + p.2))
            else mem)
          else mem) mem (step * i + j)
      = src.imageData (src.widthStep * (2 * i + 1) + (2 * j + 1)) := by
  refine foldl_write _ (fun p => p.1 % 2 = 1 ∧ p.2 % 2 = 1)
    (fun p => step * (p.1 / 2) + p.2 / 2)
    (fun p => src.imageData (src.widthStep * p.1 + p.2)) ?_ _ _ _ _ ?_ ?_
  · intro m a
    by_cases h1 : a.1 % 2 = 1 <;> by_cases h2 : a.2 % 2 = 1 <;> simp [h1, h2]
  · rintro ⟨y, x⟩ hmem ⟨hy, hx⟩ hk
    rw [List.mem_product, List.mem_range, List.mem_range] at hmem
    simp only at hy hx hk
    have hx2 : x / 2 < step := by omega
    have hj2 : j < step := by omega
    obtain ⟨e1, e2⟩ := addr_inj hx2 hj2 hk
    have ey : y = 2 * i + 1 := by omega
    have ex : x = 2 * j + 1 := by omega
    simp only [ey, ex]
  · right
    refine ⟨(2 * i + 1, 2 * j + 1), ?_, ⟨?_, ?_⟩, ?_⟩
    · rw [List.mem_product, List.mem_range, List.mem_range]
      omega
    · simp only; omega
    · simp only; omega
    · simp only
      have e1 : (2 * i + 1) / 2 = i := by omega
      have e2 : (2 * j + 1) / 2 = j := by omega
      rw [e1, e2]

/-- C1: for a source of width `W` and height `H` and a destination whose rows
hold at least `W / 2` samples, `DecimateImage` stores at destination
(row `i`, column `j`), for `i < H / 2` and `j < W / 2`, the source sample at
(row `2 i + 1`, column `2 j + 1`). -/
theorem DecimateImage_pixel (src dst : IplImage) (hstep : src.width / 2 ≤ dst.widthStep)
    (i j : Nat) (hi : i < src.height / 2) (hj : j < src.width / 2) :
    (DecimateImage src dst).pixel i j = src.pixel (2 * i + 1) (2 * j + 1) := by
  unfold IplImage.pixel
  rw [DecimateImage_imageData]
  have hws : (DecimateImage src dst).widthStep = dst.widthStep := rfl
  rw [hws]
  exact decimate_fold_get src dst.widthStep dst.imageData hstep i j hi hj

/-- C1, evaluated: a 4 x 4 source yields the 2 x 2 output made of the source
samples at (1,1), (1,3), (3,1), (3,3). -/
theorem DecimateImage_pixel_witness :
    sample4x4.width / 2 ≤ blank2x2.widthStep
      ∧ (DecimateImage sample4x4 blank2x2).pixel 0 0 = 11
      ∧ (DecimateImage sample4x4 blank2x2).pixel 0 1 = 13
      ∧ (DecimateImage sample4x4 blank2x2).pixel 1 0 = 31
      ∧ (DecimateImage sample4x4 blank2x2).pixel 1 1 = 33 :=
  ⟨by decide,
   (DecimateImage_pixel sample4x4 blank2x2 (by decide) 0 0 (by decide) (by decide)).trans
     (by decide),
   (DecimateImage_pixel sample4x4 blank2x2 (by decide) 0 1 (by decide) (by decide)).trans
     (by decide),
   (DecimateImage_pixel sample4x4 blank2x2 (by decide) 1 0 (by decide) (by decide)).trans
     (by decide),
   (DecimateImage_pixel sample4x4 blank2x2 (by decide) 1 1 (by decide) (by decide)).trans
     (by decide)⟩

/-! ## main: theorems -/

/-- The rows of an image made by `cvCreateImage` with at least one channel and
at least 8 bits per sample hold at least `width` bytes. -/
theorem cvCreateImage_widthStep (width height depth nChannels : Nat) (mem : Nat → uchar)
    (hch : 1 ≤ nChannels) (hd : 8 ≤ depth % 2147483648) :
    width ≤ (cvCreateImage width height depth nChannels mem).widthStep := by
  unfold cvCreateImage
  simp only
  have h1 : width ≤ width * nChannels := Nat.le_mul_of_pos_right _ hch
  have h2 : width * nChannels * 8 ≤ width * nChannels * (depth % 2147483648) :=
    Nat.mul_le_mul_left _ hd
  omega

/-- C2: the image `downsampled_img` of `main` has width `W / 2` and height
`H / 2` for a source of size `(W, H)`, hence zero width for `W < 2` and zero
height for `H < 2`, and the blurred image `gaussian_img` has the size of the
source. -/
theorem main_sizes (img : IplImage) (gmem dmem : Nat → uchar) :
    (main.downsampled_img img gmem dmem).width = img.width / 2
      ∧ (main.downsampled_img img gmem dmem).height = img.height / 2
      ∧ (img.width < 2 → (main.downsampled_img img gmem dmem).width = 0)
      ∧ (img.height < 2 → (main.downsampled_img img gmem dmem).height = 0)
      ∧ (main.gaussian_img img gmem).width = img.width
      ∧ (main.gaussian_img img gmem).height = img.height := by
  have hw : (main.downsampled_img img gmem dmem).width = img.width / 2 := rfl
  have hh : (main.downsampled_img img gmem dmem).height = img.height / 2 := rfl
  refine ⟨hw, hh, ?_, ?_, rfl, rfl⟩
  · intro h
    rw [hw]
    exact Nat.div_eq_of_lt h
  · intro h
    rw [hh]
    exact Nat.div_eq_of_lt h

/-- C2 on a 1 x 1 source: the output has zero width and zero height. -/
theorem main_sizes_witness :
    sample1x1.width < 2 ∧ sample1x1.height < 2
      ∧ (main.downsampled_img sample1x1 (fun _ => 0) (fun _ => 0)).width = 0
      ∧ (main.downsampled_img sample1x1 (fun _ => 0) (fun _ => 0)).height = 0 :=
  ⟨by decide, by decide,
   (main_sizes sample1x1 (fun _ => 0) (fun _ => 0)).2.2.1 (by decide),
   (main_sizes sample1x1 (fun _ => 0) (fun _ => 0)).2.2.2.1 (by decide)⟩

/-- C5: `main` maps a `W` x `H` raster whose samples all equal `v` (at least
one channel, at least 8 bits per sample) to a `W / 2` x `H / 2` raster whose
samples all equal `v`. -/
theorem main_constant_raster (img : IplImage) (gmem dmem : Nat → uchar) (v : uchar)
    (hch : 1 ≤ img.nChannels) (hd : 8 ≤ img.depth % 2147483648)
    (hsrc : ∀ y x, y < img.height → x < img.width → img.pixel y x = v) :
    (main.downsampled_img img gmem dmem).width = img.width / 2
      ∧ (main.downsampled_img img gmem dmem).height = img.height / 2
      ∧ ∀ i j, i < img.height / 2 → j < img.width / 2 →
          (main.downsampled_img img gmem dmem).pixel i j = v := by
  refine ⟨rfl, rfl, ?_⟩
  intro i j hi hj
  have hs : main.sigma ≠ 0 := by
    unfold main.sigma
    norm_num
  have hblur : ∀ y x, y < img.height → x < img.width →
      (main.gaussian_img img gmem).pixel y x = v := by
    intro y x hy hx
    unfold main.gaussian_img GaussianFilter
    exact apply_constant main.radius _ _ img _ v (kernel_total main.sigma main.radius _ hs) hsrc
      (cvCreateImage_widthStep _ _ _ _ _ hch hd) x y hx hy
  have hgw : (main.gaussian_img img gmem).width = img.width := rfl
  have hgh : (main.gaussian_img img gmem).height = img.height := rfl
  have hstep : (main.gaussian_img img gmem).width / 2
      ≤ (cvCreateImage (img.width / 2) (img.height / 2) img.depth img.nChannels dmem).widthStep := by
    rw [hgw]
    exact cvCreateImage_widthStep _ _ _ _ _ hch hd
  have hdec := decimate_fold_get (main.gaussian_img img gmem) _ dmem hstep i j
    (by rw [hgh]; exact hi) (by rw [hgw]; exact hj)
  have hpix : (main.downsampled_img img gmem dmem).pixel i j
      = (main.gaussian_img img gmem).pixel (2 * i + 1) (2 * j + 1) := by
    unfold main.downsampled_img IplImage.pixel
    rw [DecimateImage_imageData]
    exact hdec
  rw [hpix]
  exact hblur _ _ (by omega) (by omega)

/-- C5 on the 10 x 10 raster of value 200: the output is the 5 x 5 raster of
value 200. -/
theorem main_constant_raster_witness :
    1 ≤ constant10x10.nChannels ∧ 8 ≤ constant10x10.depth % 2147483648
      ∧ (∀ y x, y < constant10x10.height → x < constant10x10.width →
          constant10x10.pixel y x = 200)
      ∧ (main.downsampled_img constant10x10 (fun _ => 0) (fun _ => 0)).width = 5
      ∧ (main.downsampled_img constant10x10 (fun _ => 0) (fun _ => 0)).height = 5
      ∧ ∀ i j, i < 5 → j < 5 →
          (main.downsampled_img constant10x10 (fun _ => 0) (fun _ => 0)).pixel i j = 200 :=
  ⟨by decide, by decide, fun _ _ _ _ => rfl,
   main_constant_raster constant10x10 (fun _ => 0) (fun _ => 0) 200 (by decide) (by decide)
     (fun _ _ _ _ => rfl)⟩

/-! ## roundbanker on negative values -/

/-- On a negative value `roundbanker` returns the floor: the cast `(int)val`
truncates toward zero, so `val - (int)val` is not positive. -/
theorem roundbanker_neg {K : Type} [LinearOrderedField K] [FloorRing K] (val : K)
    (h : val < 0) : roundbanker val = ⌊val⌋ := by
  unfold roundbanker castInt
  rw [if_neg (not_le.mpr h)]
  have hc : val ≤ (⌈val⌉ : K) := Int.le_ceil val
  have hlt : val - (⌈val⌉ : K) < 0.5 := by
    rw [half_eq]
    linarith
  rw [if_pos hlt]

/-- C11, the code at negative inputs: `roundbanker(-2.4)` is -3 although -2 is
nearer (at distance 0.4 against 0.6), and `roundbanker(-2.5)` is the odd -3
although -2 is as near and even. -/
theorem roundbanker_negative_values :
    roundbanker (-2.4 : ℚ) = -3
      ∧ (-2 : ℚ) - (-2.4) < (-2.4) - (-3)
      ∧ roundbanker (-2.5 : ℚ) = -3
      ∧ (-2 : ℚ) - (-2.5) = (-2.5) - (-3)
      ∧ ¬ Even (-3 : Int) ∧ Even (-2 : Int) := by
  refine ⟨?_, ?_, ?_, ?_, by decide, by decide⟩
  · rw [roundbanker_neg _ (by norm_num)]
    norm_num
  · norm_num
  · rw [roundbanker_neg _ (by norm_num)]
    norm_num
  · norm_num

/-! ## The range of the weights and of the stored byte -/

/-- C17: for `sigma > 0` every weight of the kernel built by `GaussianFilter`
is strictly positive and at most 1. -/
theorem kernel_pos_le_one (sigma : ℝ) (radius : Nat) (m : CvMat ℝ) (hs : 0 < sigma)
    (x y : Nat) (hx : x ≤ 2 * radius) (hy : y ≤ 2 * radius) :
    0 < GaussianFilter.kernel sigma radius m (y, x)
      ∧ GaussianFilter.kernel sigma radius m (y, x) ≤ 1 := by
  have hL := length_eq radius
  have hxL : x < GaussianFilter.length radius := by omega
  have hyL : y < GaussianFilter.length radius := by omega
  have hS := kernelSum_pos sigma radius m hs.ne'
  rw [kernel_cell sigma radius m x y hxL hyL]
  refine ⟨div_pos (gaussian_pos _ _ _ hs.ne') hS, ?_⟩
  rw [div_le_one hS, kernelSum_eq]
  have hrow : gaussian (point_distance ⟨x, y⟩ ⟨radius, radius⟩) 0 sigma
      ≤ ∑ y' in Finset.range (GaussianFilter.length radius),
          gaussian (point_distance ⟨x, y'⟩ ⟨radius, radius⟩) 0 sigma :=
    @Finset.single_le_sum ℕ ℝ _
      (fun y' : Nat => gaussian (point_distance ⟨x, y'⟩ ⟨radius, radius⟩) 0 sigma)
      (Finset.range (GaussianFilter.length radius))
      (fun i _ => (gaussian_pos _ _ _ hs.ne').le) y (Finset.mem_range.mpr hyL)
  refine le_trans hrow ?_
  exact @Finset.single_le_sum ℕ ℝ _
    (fun x' : Nat => ∑ y' in Finset.range (GaussianFilter.length radius),
      gaussian (point_distance ⟨x', y'⟩ ⟨radius, radius⟩) 0 sigma)
    (Finset.range (GaussianFilter.length radius))
    (fun i _ => Finset.sum_nonneg (fun j _ => (gaussian_pos _ _ _ hs.ne').le)) x
    (Finset.mem_range.mpr hxL)

/-- C17 at the constants of `main`, for the centre cell. -/
theorem kernel_pos_le_one_witness :
    (0 : ℝ) < 0.8475 ∧ 4 ≤ 2 * 4
      ∧ 0 < GaussianFilter.kernel 0.8475 4 (cvCreateMat ℝ 9 9) (4, 4)
      ∧ GaussianFilter.kernel 0.8475 4 (cvCreateMat ℝ 9 9) (4, 4) ≤ 1 :=
  ⟨by norm_num, by decide,
   kernel_pos_le_one 0.8475 4 (cvCreateMat ℝ 9 9) (by norm_num) 4 4 (by decide) (by decide)⟩

/-- C12: for `sigma > 0` the weighted sum `GaussianFilter` computes for a
pixel lies in `[0, 255]`, `roundbanker` of it is an integer in `0 .. 255`, and
the byte stored in the destination is that integer, which is also its clamp to
`[0, 255]`: the narrowing to 8 bits (modulo 256) never wraps. -/
theorem GaussianFilter_no_wrap (src dst : IplImage) (sigma : ℝ) (radius : Nat)
    (area : CvMat uchar) (hs : 0 < sigma) (hstep : src.width ≤ dst.widthStep) (x y : Nat)
    (hx : x < src.width) (hy : y < src.height) :
    0 ≤ GaussianFilter.wsum radius
          (GaussianFilter.kernel sigma radius
            (cvCreateMat ℝ (GaussianFilter.length radius) (GaussianFilter.length radius)))
          (GaussianFilter.surround radius src y x area)
      ∧ GaussianFilter.wsum radius
          (GaussianFilter.kernel sigma radius
            (cvCreateMat ℝ (GaussianFilter.length radius) (GaussianFilter.length radius)))
          (GaussianFilter.surround radius src y x area) ≤ 255
      ∧ 0 ≤ roundbanker (GaussianFilter.wsum radius
          (GaussianFilter.kernel sigma radius
            (cvCreateMat ℝ (GaussianFilter.length radius) (GaussianFilter.length radius)))
          (GaussianFilter.surround radius src y x area))
      ∧ roundbanker (GaussianFilter.wsum radius
          (GaussianFilter.kernel sigma radius
            (cvCreateMat ℝ (GaussianFilter.length radius) (GaussianFilter.length radius)))
          (GaussianFilter.surround radius src y x area)) ≤ 255
      ∧ roundbanker (GaussianFilter.wsum radius
          (GaussianFilter.kernel sigma radius
            (cvCreateMat ℝ (GaussianFilter.length radius) (GaussianFilter.length radius)))
          (GaussianFilter.surround radius src y x area)) % 256
        = roundbanker (GaussianFilter.wsum radius
          (GaussianFilter.kernel sigma radius
            (cvCreateMat ℝ (GaussianFilter.length radius) (GaussianFilter.length radius)))
          (GaussianFilter.surround radius src y x area))
      ∧ (((GaussianFilter src dst sigma radius).pixel y x).val : Int)
        = spec_clamp (roundbanker (GaussianFilter.wsum radius
          (GaussianFilter.kernel sigma radius
            (cvCreateMat ℝ (GaussianFilter.length radius) (GaussianFilter.length radius)))
          (GaussianFilter.surround radius src y x area))) := by
  have hpix : (GaussianFilter src dst sigma radius).pixel y x
      = toUchar (roundbanker (GaussianFilter.wsum radius
          (GaussianFilter.kernel sigma radius
            (cvCreateMat ℝ (GaussianFilter.length radius) (GaussianFilter.length radius)))
          (GaussianFilter.surround radius src y x area))) := by
    rw [wsum_surround]
    unfold GaussianFilter
    exact apply_pixel radius _ _ src dst hstep x y hx hy
  have hr := spec_wsum_range src radius
    (GaussianFilter.kernel sigma radius
      (cvCreateMat ℝ (GaussianFilter.length radius) (GaussianFilter.length radius))) x y
    (fun x2 y2 h2 h3 => kernel_nonneg sigma radius _ hs.ne' x2 y2 h2 h3)
    (kernel_total sigma radius _ hs.ne')
  unfold spec_wsum at hr
  rw [← wsum_surround radius _ src y x area] at hr
  have hb := roundbanker_range _ hr.1 hr.2
  refine ⟨hr.1, hr.2, hb.1, hb.2, Int.emod_eq_of_lt hb.1 (by omega), ?_⟩
  rw [hpix, toUchar_val_of_range _ hb.1 hb.2]
  unfold spec_clamp
  rw [min_eq_right hb.2, max_eq_right hb.1]

/-- C12 at the corner pixel of a 3 x 3 raster with the constants of `main`. -/
theorem GaussianFilter_no_wrap_witness :
    (0 : ℝ) < 0.8475 ∧ sample3x3.width ≤ blank3x3.widthStep
      ∧ 0 < sample3x3.width ∧ 0 < sample3x3.height
      ∧ 0 ≤ roundbanker (GaussianFilter.wsum 4
          (GaussianFilter.kernel 0.8475 4
            (cvCreateMat ℝ (GaussianFilter.length 4) (GaussianFilter.length 4)))
          (GaussianFilter.surround 4 sample3x3 0 0 (cvCreateMat uchar 9 9)))
      ∧ roundbanker (GaussianFilter.wsum 4
          (GaussianFilter.kernel 0.8475 4
            (cvCreateMat ℝ (GaussianFilter.length 4) (GaussianFilter.length 4)))
          (GaussianFilter.surround 4 sample3x3 0 0 (cvCreateMat uchar 9 9))) ≤ 255
      ∧ (((GaussianFilter sample3x3 blank3x3 0.8475 4).pixel 0 0).val : Int)
        = spec_clamp (roundbanker (GaussianFilter.wsum 4
          (GaussianFilter.kernel 0.8475 4
            (cvCreateMat ℝ (GaussianFilter.length 4) (GaussianFilter.length 4)))
          (GaussianFilter.surround 4 sample3x3 0 0 (cvCreateMat uchar 9 9)))) :=
  ⟨by norm_num, by decide, by decide, by decide,
   (GaussianFilter_no_wrap sample3x3 blank3x3 0.8475 4 (cvCreateMat uchar 9 9) (by norm_num)
     (by decide) 0 0 (by decide) (by decide)).2.2.1,
   (GaussianFilter_no_wrap sample3x3 blank3x3 0.8475 4 (cvCreateMat uchar 9 9) (by norm_num)
     (by decide) 0 0 (by decide) (by decide)).2.2.2.1,
   (GaussianFilter_no_wrap sample3x3 blank3x3 0.8475 4 (cvCreateMat uchar 9 9) (by norm_num)
     (by decide) 0 0 (by decide) (by decide)).2.2.2.2.2⟩

/-! ## CommentPGM: theorems -/

/-- Inside the buffer `at` returns the byte. -/
theorem vector_at_lt (buffer : List uchar) (i : Nat) (h : i < buffer.length) :
    vector_at buffer i = Except.ok buffer[i] := by
  unfold vector_at
  rw [List.getElem?_eq_getElem h]

/-- Outside the buffer `at` raises `out_of_range`. -/
theorem vector_at_ge (buffer : List uchar) (i : Nat) (h : buffer.length ≤ i) :
    vector_at buffer i = Except.error CommentError.out_of_range := by
  unfold vector_at
  rw [List.getElem?_eq_none h]

/-- On a buffer of at least 3 bytes the first statement writes the first three
bytes, in either evaluation order. -/
theorem header_ok (order : EvalOrder) (buffer : List uchar) (h : 3 ≤ buffer.length) :
    CommentPGM.header order buffer = (Except.ok (), buffer.take 3) := by
  match buffer, h with
  | b0 :: b1 :: b2 :: t, _ =>
    cases order <;> simp [CommentPGM.header, vector_at]

/-- The copy loop over `n` indices from `s` on, all inside the buffer, appends
the bytes at these indices to the stream. -/
theorem rest_loop (buffer : List uchar) (n s : Nat) (written : List uchar)
    (h : s + n ≤ buffer.length) :
    (List.range' s n).foldl (fun (st : Except CommentError Unit × List uchar) i =>
      match st.1 with
      | Except.error _ => st
      | Except.ok _ =>
        match vector_at buffer i with
        | Except.error e => (Except.error e, st.2)
        | Except.ok b => (Except.ok (), st.2 ++ [b])) (Except.ok (), written)
      = (Except.ok (), written ++ (buffer.drop s).take n) := by
  induction n generalizing s written with
  | zero => simp
  | succ n ih =>
    have hs : s < buffer.length := by omega
    rw [List.range'_succ, List.foldl_cons]
    simp only [vector_at_lt buffer s hs]
    rw [ih (s + 1) (written ++ [buffer[s]]) (by omega), List.drop_eq_getElem_cons hs,
      List.take_succ_cons, List.append_assoc]
    rfl

/-- On a buffer of at least 3 bytes the copy loop appends every byte from index
3 on. -/
theorem rest_ok (buffer : List uchar) (written : List uchar) :
    CommentPGM.rest buffer buffer.length written = (Except.ok (), written ++ buffer.drop 3) := by
  unfold CommentPGM.rest
  by_cases h : 3 ≤ buffer.length
  · rw [rest_loop buffer (buffer.length - 3) 3 written (by omega)]
    rw [List.take_of_length_le (by rw [List.length_drop])]
  · have h0 : buffer.length - 3 = 0 := by omega
    have hd : buffer.drop 3 = [] := List.drop_eq_nil_of_le (by omega)
    rw [h0, hd]
    simp

/-- C13: for a file of at least 3 bytes that can be rewritten, `CommentPGM`
returns normally and leaves the file holding its first three bytes, `#`, the
comment, a newline, and every byte from index 3 on; the file grows by the
length of the comment plus 2, and no other file changes. -/
theorem CommentPGM_inserts (order : EvalOrder) (fs : FileSystem) (pgmfile : String)
    (comment b : List uchar) (hfile : fs pgmfile = some ⟨b, true⟩) (hlen : 3 ≤ b.length) :
    (CommentPGM order fs pgmfile comment).1 = Except.ok ()
      ∧ (CommentPGM order fs pgmfile comment).2 pgmfile
          = some ⟨b.take 3 ++ [35] ++ comment ++ [10] ++ b.drop 3, true⟩
      ∧ (b.take 3 ++ [35] ++ comment ++ [10] ++ b.drop 3).length = b.length + (comment.length + 2)
      ∧ ∀ other, other ≠ pgmfile → (CommentPGM order fs pgmfile comment).2 other = fs other := by
  have hrun : CommentPGM order fs pgmfile comment
      = (Except.ok (), fs.write pgmfile (b.take 3 ++ [35] ++ comment ++ [10] ++ b.drop 3)) := by
    unfold CommentPGM
    rw [hfile]
    simp only [header_ok order b hlen, rest_ok]
    rfl
  rw [hrun]
  refine ⟨rfl, ?_, ?_, ?_⟩
  · simp [FileSystem.write]
  · simp only [List.length_append, List.length_take, List.length_drop, List.length_cons,
      List.length_nil]
    omega
  · intro other hne
    simp [FileSystem.write, hne]

/-- C13 on a five-byte file and a one-byte comment. -/
theorem CommentPGM_inserts_witness :
    (3 ≤ [(80 : uchar), 53, 10, 1, 2].length)
      ∧ (CommentPGM EvalOrder.sequenced (fun _ => some ⟨[80, 53, 10, 1, 2], true⟩) "out.pgm"
          [65]).1 = Except.ok ()
      ∧ (CommentPGM EvalOrder.sequenced (fun _ => some ⟨[80, 53, 10, 1, 2], true⟩) "out.pgm"
          [65]).2 "out.pgm" = some ⟨[80, 53, 10, 35, 65, 10, 1, 2], true⟩ :=
  ⟨by decide,
   (CommentPGM_inserts EvalOrder.sequenced (fun _ => some ⟨[80, 53, 10, 1, 2], true⟩) "out.pgm"
     [65] [80, 53, 10, 1, 2] rfl (by decide)).1,
   (CommentPGM_inserts EvalOrder.sequenced (fun _ => some ⟨[80, 53, 10, 1, 2], true⟩) "out.pgm"
     [65] [80, 53, 10, 1, 2] rfl (by decide)).2.1⟩

/-- What `CommentPGM` does on a buffer of fewer than 3 bytes: the first
statement raises `out_of_range`, with nothing written when the reads come
first and with the whole buffer written when reads and writes alternate. -/
theorem header_short (order : EvalOrder) (buffer : List uchar) (h : buffer.length < 3) :
    CommentPGM.header order buffer
      = (Except.error CommentError.out_of_range,
          match order with
          | EvalOrder.sequenced => buffer
          | EvalOrder.operandsFirst => []) := by
  match buffer, h with
  | [], _ => cases order <;> simp [CommentPGM.header, vector_at]
  | [b0], _ => cases order <;> simp [CommentPGM.header, vector_at]
  | [b0, b1], _ => cases order <;> simp [CommentPGM.header, vector_at]

/-- C20 as stated fails on an empty file: `CommentPGM` raises `out_of_range`
and leaves the file empty, as it was, in either evaluation order. -/
theorem CommentPGM_empty_file_preserved :
    (CommentPGM EvalOrder.sequenced (fun _ => some ⟨[], true⟩) "out.pgm" [65]).1
        = Except.error CommentError.out_of_range
      ∧ (CommentPGM EvalOrder.sequenced (fun _ => some ⟨[], true⟩) "out.pgm" [65]).2 "out.pgm"
        = some ⟨[], true⟩
      ∧ (CommentPGM EvalOrder.operandsFirst (fun _ => some ⟨[], true⟩) "out.pgm" [65]).1
        = Except.error CommentError.out_of_range
      ∧ (CommentPGM EvalOrder.operandsFirst (fun _ => some ⟨[], true⟩) "out.pgm" [65]).2 "out.pgm"
        = some ⟨[], true⟩ := by
  simp [CommentPGM, CommentPGM.header, vector_at, FileSystem.write]

/-- C20, amended: for a file of fewer than 3 bytes that can be rewritten,
`CommentPGM` does not return normally: `out_of_range` is raised after the file
was reopened for writing and truncated.  The file is left with the bytes
written before the error, a prefix of its original content without the
comment: nothing when the three reads are evaluated first, the whole original
content when each read is evaluated right before its write. -/
theorem CommentPGM_short (order : EvalOrder) (fs : FileSystem) (pgmfile : String)
    (comment b : List uchar) (hfile : fs pgmfile = some ⟨b, true⟩) (hlen : b.length < 3) :
    (CommentPGM order fs pgmfile comment).1 = Except.error CommentError.out_of_range
      ∧ ∃ written, (CommentPGM order fs pgmfile comment).2 pgmfile = some ⟨written, true⟩
          ∧ written <+: b
          ∧ (order = EvalOrder.operandsFirst → written = [])
          ∧ (order = EvalOrder.sequenced → written = b) := by
  have hrun : CommentPGM order fs pgmfile comment
      = (Except.error CommentError.out_of_range,
          fs.write pgmfile (match order with
            | EvalOrder.sequenced => b
            | EvalOrder.operandsFirst => [])) := by
    unfold CommentPGM
    rw [hfile]
    simp only [header_short order b hlen]
    rfl
  rw [hrun]
  refine ⟨rfl, ?_⟩
  cases order
  · exact ⟨b, by simp [FileSystem.write], List.prefix_refl b, by simp, by simp⟩
  · exact ⟨[], by simp [FileSystem.write], List.nil_prefix, by simp, by simp⟩

/-- C20, amended, on a two-byte file when the reads are evaluated first: the
file is left empty. -/
theorem CommentPGM_short_witness :
    ([(80 : uchar), 53].length < 3)
      ∧ (CommentPGM EvalOrder.operandsFirst (fun _ => some ⟨[80, 53], true⟩) "out.pgm" [65]).1
        = Except.error CommentError.out_of_range
      ∧ ∃ written,
          (CommentPGM EvalOrder.operandsFirst (fun _ => some ⟨[80, 53], true⟩) "out.pgm" [65]).2
              "out.pgm" = some ⟨written, true⟩
          ∧ written <+: [80, 53]
          ∧ (EvalOrder.operandsFirst = EvalOrder.operandsFirst → written = [])
          ∧ (EvalOrder.operandsFirst = EvalOrder.sequenced → written = [80, 53]) :=
  ⟨by decide,
   CommentPGM_short EvalOrder.operandsFirst (fun _ => some ⟨[80, 53], true⟩) "out.pgm" [65]
     [80, 53] rfl (by decide)⟩

/-! ## main: theorems on the command line -/

/-- The search loop of `find_last_of` keeps its result over characters other
than the one searched. -/
theorem find_last_of_absent (c : Char) (s : List Char) (h : c ∉ s) (n r : Nat) :
    (s.enumFrom n).foldl (fun r p => if p.2 = c then p.1 else r) r = r := by
  induction s generalizing n r with
  | nil => rfl
  | cons a s ih =>
    have ha : a ≠ c := fun e => h (e ▸ List.mem_cons_self _ _)
    have hs : c ∉ s := fun e => h (List.mem_cons_of_mem _ e)
    rw [List.enumFrom_cons, List.foldl_cons]
    simp only [ha, if_false]
    exact ih hs _ _

/-- The call `find_last_of` returns the index of the last occurrence. -/
theorem find_last_of_split (c : Char) (pre suf : List Char) (h : c ∉ suf) :
    find_last_of (pre ++ c :: suf) c = pre.length := by
  unfold find_last_of List.enum
  rw [List.enumFrom_append, List.foldl_append, List.enumFrom_cons, List.foldl_cons]
  simp only [if_true, Nat.zero_add]
  exact find_last_of_absent c suf h _ _

/-- A list with an occurrence of `c` splits at the last occurrence. -/
theorem split_at_last (c : Char) (s : List Char) (h : c ∈ s) :
    ∃ pre suf, s = pre ++ c :: suf ∧ c ∉ suf := by
  obtain ⟨as, bs, e, hn⟩ := List.eq_append_cons_of_mem (List.mem_reverse.mpr h)
  refine ⟨bs.reverse, as.reverse, ?_, fun hm => hn (List.mem_reverse.mp hm)⟩
  have e2 := congrArg List.reverse e
  rw [List.reverse_reverse] at e2
  rw [e2]
  simp

/-- For an output path with a `.` (and shorter than `2^64 - 1`), `ext` is the
lower-cased text after the last `.`, the extension of the specification. -/
theorem ext_of_dotted (outfilename : String) (hdot : '.' ∈ outfilename.toList)
    (hlen : outfilename.toList.length < 18446744073709551615) :
    ∃ e, spec_extension outfilename = some e ∧ main.ext outfilename = e.map Char.toLower := by
  obtain ⟨pre, suf, e, hn⟩ := split_at_last '.' outfilename.toList hdot
  refine ⟨suf, ?_, ?_⟩
  · unfold spec_extension
    rw [if_pos hdot, e]
    have hall : ∀ a ∈ suf.reverse, (fun c : Char => decide (c ≠ '.')) a = true := by
      intro a ha
      have : a ≠ '.' := fun t => hn (t ▸ List.mem_reverse.mp ha)
      simpa using this
    have hrev : (pre ++ '.' :: suf).reverse = suf.reverse ++ '.' :: pre.reverse := by simp
    rw [hrev, List.takeWhile_append_of_pos hall, List.takeWhile_cons_of_neg (by simp)]
    simp
  · unfold main.ext
    rw [e, find_last_of_split '.' pre suf hn]
    have hl : pre.length + 1 < 18446744073709551616 := by
      rw [e] at hlen
      simp only [List.length_append, List.length_cons] at hlen
      omega
    rw [Nat.mod_eq_of_lt hl]
    have hd : (pre ++ '.' :: suf).drop (pre.length + 1) = suf := by
      rw [List.drop_append]
      rfl
    simp only [hd]

/-- For an output path without a `.`, `find_last_of` returns `npos`, the
addition wraps to 0 and `ext` is the whole lower-cased path. -/
theorem ext_of_dotless (outfilename : String) (hdot : '.' ∉ outfilename.toList) :
    main.ext outfilename = outfilename.toList.map Char.toLower := by
  unfold main.ext find_last_of List.enum
  rw [find_last_of_absent '.' _ hdot]
  have h0 : (npos + 1) % 18446744073709551616 = 0 := by decide
  simp only [h0, List.drop_zero]

/-- C14, the code on a help request: with the help flag as sole argument
(`argc` is 2) `main` reports an argument-count error and exits with failure;
the help branch, which prints the usage text and exits with success, is
reached only when a second argument follows the flag. -/
theorem help_sole_argument (exe out : String) (canOpen : String → Bool) :
    main.arguments [exe, "-h"] canOpen
        = ArgResult.exit EXIT_FAILURE [Message.incorrectNumberOfArguments, Message.usage exe]
      ∧ main.arguments [exe, "-help"] canOpen
        = ArgResult.exit EXIT_FAILURE [Message.incorrectNumberOfArguments, Message.usage exe]
      ∧ main.arguments [exe, "?"] canOpen
        = ArgResult.exit EXIT_FAILURE [Message.incorrectNumberOfArguments, Message.usage exe]
      ∧ EXIT_FAILURE ≠ EXIT_SUCCESS
      ∧ main.arguments [exe, "-h", out] canOpen
        = ArgResult.exit EXIT_SUCCESS [Message.usage exe] := by
  refine ⟨?_, ?_, ?_, by decide, ?_⟩ <;> simp [main.arguments]

/-- C15, the code on the output path `pgm`: the path has no `.`, hence no
extension, and the extension check of `main` passes all the same. -/
theorem extension_check_dotless_pgm :
    spec_extension "pgm" = none
      ∧ main.arguments ["NISTDownsampler", "in.png", "pgm"] (fun _ => true)
        = ArgResult.loadImage "pgm"
      ∧ spec_extension "PGM" = none
      ∧ main.arguments ["NISTDownsampler", "in.png", "PGM"] (fun _ => true)
        = ArgResult.loadImage "PGM" := by
  decide

/-- C19: for an output path without a `.` the extension check of `main`
compares the whole lower-cased path with `pgm`: the path passes the check
when it is `pgm` in any letter case, and is rejected with failure status
otherwise. -/
theorem extension_check_dotless (exe inp out : String) (canOpen : String → Bool)
    (hdot : '.' ∉ out.toList) (hhelp : inp ≠ "-h" ∧ inp ≠ "-help" ∧ inp ≠ "?") :
    main.ext out = out.toList.map Char.toLower
      ∧ (out.toList.map Char.toLower = "pgm".toList →
          main.arguments [exe, inp, out] canOpen
            = if canOpen out = false then
                ArgResult.exit EXIT_FAILURE [Message.cannotOpenOutputFile out, Message.usage exe]
              else ArgResult.loadImage out)
      ∧ (out.toList.map Char.toLower ≠ "pgm".toList →
          main.arguments [exe, inp, out] canOpen = ArgResult.exit EXIT_FAILURE [Message.usage exe]) := by
  have he := ext_of_dotless out hdot
  have h1 : ¬ ([exe, inp, out].length ≠ 3) := fun t => t rfl
  have h2 : ¬ (inp = "-h" ∨ inp = "-help" ∨ inp = "?") := by
    rintro (t | t | t)
    · exact hhelp.1 t
    · exact hhelp.2.1 t
    · exact hhelp.2.2 t
  have g0 : [exe, inp, out].getD 0 "" = exe := rfl
  have g1 : [exe, inp, out].getD 1 "" = inp := rfl
  have g2 : [exe, inp, out].getD 2 "" = out := rfl
  refine ⟨he, ?_, ?_⟩
  · intro h
    unfold main.arguments
    rw [if_neg h1, g0, g1, g2, if_neg h2, he, if_pos h]
  · intro h
    unfold main.arguments
    rw [if_neg h1, g0, g1, g2, if_neg h2, he, if_neg h]

/-- C19 on the paths `PGM`, which passes, and `out`, which is rejected. -/
theorem extension_check_dotless_witness :
    '.' ∉ "PGM".toList ∧ '.' ∉ "out".toList
      ∧ main.arguments ["NISTDownsampler", "in.png", "PGM"] (fun _ => true)
        = ArgResult.loadImage "PGM"
      ∧ main.arguments ["NISTDownsampler", "in.png", "out"] (fun _ => true)
        = ArgResult.exit EXIT_FAILURE [Message.usage "NISTDownsampler"] :=
  ⟨by decide, by decide,
   (extension_check_dotless "NISTDownsampler" "in.png" "PGM" (fun _ => true) (by decide)
     (by decide)).2.1 (by decide),
   (extension_check_dotless "NISTDownsampler" "in.png" "out" (fun _ => true) (by decide)
     (by decide)).2.2 (by decide)⟩

/-! ## Rasters with several channels -/

/-- The filter step leaves the bytes of a destination row at the columns from
`width` up to the row stride as they were. -/
theorem apply_frame {K : Type} [LinearOrderedField K] [FloorRing K] (radius : Nat)
    (gaussian_kernel : CvMat K) (area : CvMat uchar) (src dst : IplImage) (x y : Nat)
    (hx : src.width ≤ x) (hxs : x < dst.widthStep) :
    (GaussianFilter.apply radius gaussian_kernel area src dst).pixel y x = dst.pixel y x := by
  unfold IplImage.pixel
  rw [apply_imageData]
  have hws : (GaussianFilter.apply radius gaussian_kernel area src dst).widthStep
      = dst.widthStep := rfl
  rw [hws]
  refine foldl_write _ (fun _ => True) (fun p => dst.widthStep * p.1 + p.2)
    (fun p => toUchar (roundbanker
      (∑ x2 in Finset.range (2 * radius + 1), ∑ y2 in Finset.range (2 * radius + 1),
        ((spec_tap src radius p.2 p.1 x2 y2).val : K) * gaussian_kernel (y2, x2))))
    ?_ _ _ _ _ ?_ (Or.inl rfl)
  · intro m a
    rw [if_pos trivial]
  · rintro ⟨b1, b2⟩ hmem _ hk
    rw [List.mem_product, List.mem_range, List.mem_range] at hmem
    simp only at hk
    have hb2 : b2 < dst.widthStep := by omega
    obtain ⟨_, e2⟩ := addr_inj hb2 hxs hk
    omega

/-- The loop of `DecimateImage` leaves the bytes of a destination row at the
columns from `W / 2` up to the row stride as they were. -/
theorem DecimateImage_frame (src dst : IplImage) (i j : Nat) (hj : src.width / 2 ≤ j)
    (hjs : j < dst.widthStep) :
    (DecimateImage src dst).pixel i j = dst.pixel i j := by
  unfold IplImage.pixel
  rw [DecimateImage_imageData]
  have hws : (DecimateImage src dst).widthStep = dst.widthStep := rfl
  rw [hws]
  refine foldl_write _ (fun p => p.1 % 2 = 1 ∧ p.2 % 2 = 1)
    (fun p => dst.widthStep * (p.1 / 2) + p.2 / 2)
    (fun p => src.imageData (src.widthStep * p.1 + p.2)) ?_ _ _ _ _ ?_ (Or.inl rfl)
  · intro m a
    by_cases h1 : a.1 % 2 = 1 <;> by_cases h2 : a.2 % 2 = 1 <;> simp [h1, h2]
  · rintro ⟨b1, b2⟩ hmem _ hk
    rw [List.mem_product, List.mem_range, List.mem_range] at hmem
    simp only at hk
    have hb2 : b2 / 2 < dst.widthStep := by omega
    obtain ⟨_, e2⟩ := addr_inj hb2 hjs hk
    omega

/-- C16 as stated fails on a 2 x 2 raster with two interleaved channels:
`DecimateImage` leaves in channel 0 of the output pixel the byte 5, the sample
of channel 1 of the source pixel (1, 0), where decimating the plane of
channel 0 gives the byte 6, and it leaves channel 1 of the output pixel
unwritten. -/
theorem DecimateImage_mixes_channels :
    (DecimateImage interleaved2x2 interleaved1x1).sample 0 0 0 = 5
      ∧ interleaved2x2.sample 1 0 1 = 5
      ∧ (DecimateImage (interleaved2x2.plane 0) (interleaved1x1.plane 0)).pixel 0 0 = 6
      ∧ (DecimateImage interleaved2x2 interleaved1x1).sample 0 0 0
          ≠ (DecimateImage (interleaved2x2.plane 0) (interleaved1x1.plane 0)).pixel 0 0
      ∧ (DecimateImage interleaved2x2 interleaved1x1).sample 0 0 1
          = interleaved1x1.sample 0 0 1 := by
  decide

/-- C16, amended: whatever the channel count, `GaussianFilter` and
`DecimateImage` address the rows by byte.  In the arithmetic of the program,
`GaussianFilter` writes at byte `(y, x)`, `x < width`, `roundbanker` of the
window sum over the neighbouring bytes of the source; `DecimateImage` writes
at byte `(i, j)`, `i < H / 2` and `j < W / 2`, the source byte
`(2 i + 1, 2 j + 1)`; both leave the bytes of a destination row at the columns
from `width` (from `W / 2`) up to the row stride as they were.  The sample of
channel `k` of the pixel `(row, col)` is the byte `(row, col * nChannels + k)`. -/
theorem multichannel_by_byte {K : Type} [LinearOrderedField K] [FloorRing K]
    (ops : FloatOps K) (src gdst ddst : IplImage) (sigma : K) (radius : Nat)
    (hg : src.width ≤ gdst.widthStep) (hd : src.width / 2 ≤ ddst.widthStep) :
    (∀ x y, x < src.width → y < src.height →
        (Rounded.GaussianFilter ops src gdst sigma radius).pixel y x
          = toUchar (roundbanker (Rounded.spec_wsum ops src radius
              (Rounded.GaussianFilter.kernel ops sigma radius
                (cvCreateMat K (GaussianFilter.length radius) (GaussianFilter.length radius)))
              x y)))
      ∧ (∀ x y, src.width ≤ x → x < gdst.widthStep →
          (Rounded.GaussianFilter ops src gdst sigma radius).pixel y x = gdst.pixel y x)
      ∧ (∀ i j, i < src.height / 2 → j < src.width / 2 →
          (DecimateImage src ddst).pixel i j = src.pixel (2 * i + 1) (2 * j + 1))
      ∧ (∀ i j, src.width / 2 ≤ j → j < ddst.widthStep →
          (DecimateImage src ddst).pixel i j = ddst.pixel i j)
      ∧ (∀ row col k, src.sample row col k = src.pixel row (col * src.nChannels + k)) := by
  refine ⟨?_, ?_, ?_, ?_, ?_⟩
  · intro x y hx hy
    unfold Rounded.GaussianFilter IplImage.pixel
    rw [rounded_apply_imageData]
    exact pixel_loop_get src.height src.width gdst.widthStep
      (fun p => toUchar (roundbanker (Rounded.spec_wsum ops src radius
        (Rounded.GaussianFilter.kernel ops sigma radius
          (cvCreateMat K (GaussianFilter.length radius) (GaussianFilter.length radius)))
        p.2 p.1)))
      gdst.imageData hg x y hx hy
  · intro x y hx hxs
    unfold Rounded.GaussianFilter IplImage.pixel
    rw [rounded_apply_imageData]
    exact pixel_loop_frame src.height src.width gdst.widthStep
      (fun p => toUchar (roundbanker (Rounded.spec_wsum ops src radius
        (Rounded.GaussianFilter.kernel ops sigma radius
          (cvCreateMat K (GaussianFilter.length radius) (GaussianFilter.length radius)))
        p.2 p.1)))
      gdst.imageData x y hx hxs
  · intro i j hi hj
    unfold IplImage.pixel
    rw [DecimateImage_imageData]
    exact decimate_fold_get src ddst.widthStep ddst.imageData hd i j hi hj
  · intro i j hj hjs
    exact DecimateImage_frame src ddst i j hj hjs
  · intro row col k
    unfold IplImage.sample IplImage.pixel
    rw [Nat.add_assoc]

/-- C16, amended, on the 2 x 2 raster with two interleaved channels: the byte
of channel 0 of the decimated pixel is the source byte (1, 1), and the byte of
channel 1 of the filtered pixel (0, 1), at column 3, is not written. -/
theorem multichannel_by_byte_witness :
    interleaved2x2.width ≤ interleavedBlank2x2.widthStep
      ∧ interleaved2x2.width / 2 ≤ interleaved1x1.widthStep
      ∧ (DecimateImage interleaved2x2 interleaved1x1).pixel 0 0 = interleaved2x2.pixel 1 1
      ∧ (Rounded.GaussianFilter FloatOps.exact interleaved2x2 interleavedBlank2x2 0.8475 4).pixel
          0 3 = interleavedBlank2x2.pixel 0 3 :=
  ⟨by decide, by decide,
   (multichannel_by_byte FloatOps.exact interleaved2x2 interleavedBlank2x2 interleaved1x1
     0.8475 4 (by decide) (by decide)).2.2.1 0 0 (by decide) (by decide),
   (multichannel_by_byte FloatOps.exact interleaved2x2 interleavedBlank2x2 interleaved1x1
     0.8475 4 (by decide) (by decide)).2.1 3 0 (by decide) (by decide)⟩

/-! ## Mirrored rasters -/

/-- The samples of the horizontal mirror. -/
theorem mirrorH_pixel (img : IplImage) (hw : img.width ≤ img.widthStep) (y x : Nat)
    (hx : x < img.width) : img.mirrorH.pixel y x = img.pixel y (img.width - 1 - x) := by
  have hxs : x < img.widthStep := lt_of_lt_of_le hx hw
  have hm : (img.widthStep * y + x) % img.widthStep = x := by
    rw [Nat.mul_add_mod, Nat.mod_eq_of_lt hxs]
  have hq : (img.widthStep * y + x) / img.widthStep = y := by
    rw [Nat.mul_add_div (by omega), Nat.div_eq_of_lt hxs, Nat.add_zero]
  have hs : img.mirrorH.widthStep = img.widthStep := rfl
  unfold IplImage.pixel
  rw [hs]
  show (if (img.widthStep * y + x) % img.widthStep < img.width then
      img.imageData (img.widthStep * ((img.widthStep * y + x) / img.widthStep)
        + (img.width - 1 - (img.widthStep * y + x) % img.widthStep))
    else img.imageData (img.widthStep * y + x)) = _
  rw [hm, hq, if_pos hx]

/-- The samples of the vertical mirror. -/
theorem mirrorV_pixel (img : IplImage) (y x : Nat) (hxs : x < img.widthStep)
    (hy : y < img.height) : img.mirrorV.pixel y x = img.pixel (img.height - 1 - y) x := by
  have hm : (img.widthStep * y + x) % img.widthStep = x := by
    rw [Nat.mul_add_mod, Nat.mod_eq_of_lt hxs]
  have hq : (img.widthStep * y + x) / img.widthStep = y := by
    rw [Nat.mul_add_div (by omega), Nat.div_eq_of_lt hxs, Nat.add_zero]
  have hs : img.mirrorV.widthStep = img.widthStep := rfl
  unfold IplImage.pixel
  rw [hs]
  show (if (img.widthStep * y + x) / img.widthStep < img.height then
      img.imageData (img.widthStep * (img.height - 1 - (img.widthStep * y + x) / img.widthStep)
        + (img.widthStep * y + x) % img.widthStep)
    else img.imageData (img.widthStep * y + x)) = _
  rw [hm, hq, if_pos hy]

/-- The weight of a cell equals the weight of the cell mirrored in its
column index. -/
theorem kernel_reflect_col (sigma : ℝ) (radius : Nat) (m : CvMat ℝ) (x y : Nat)
    (hx : x ≤ 2 * radius) (hy : y ≤ 2 * radius) :
    GaussianFilter.kernel sigma radius m (y, 2 * radius - x)
      = GaussianFilter.kernel sigma radius m (y, x) := by
  have hL := length_eq radius
  rw [kernel_cell sigma radius m x y (by omega) (by omega),
    kernel_cell sigma radius m (2 * radius - x) y (by omega) (by omega)]
  have hd : point_distance ⟨(2 * radius - x : Nat), y⟩ ⟨radius, radius⟩
      = point_distance ⟨x, y⟩ ⟨radius, radius⟩ := by
    unfold point_distance
    congr 1
    push_cast [Nat.cast_sub hx]
    ring
  rw [hd]

/-- The weight of a cell equals the weight of the cell mirrored in its row
index. -/
theorem kernel_reflect_row (sigma : ℝ) (radius : Nat) (m : CvMat ℝ) (x y : Nat)
    (hx : x ≤ 2 * radius) (hy : y ≤ 2 * radius) :
    GaussianFilter.kernel sigma radius m (2 * radius - y, x)
      = GaussianFilter.kernel sigma radius m (y, x) := by
  have hL := length_eq radius
  rw [kernel_cell sigma radius m x y (by omega) (by omega),
    kernel_cell sigma radius m x (2 * radius - y) (by omega) (by omega)]
  have hd : point_distance ⟨x, (2 * radius - y : Nat)⟩ ⟨radius, radius⟩
      = point_distance ⟨x, y⟩ ⟨radius, radius⟩ := by
    unfold point_distance
    congr 1
    push_cast [Nat.cast_sub hy]
    ring
  rw [hd]

/-- The tap of the horizontal mirror at `(x, y)` and window position `x2` is
the tap of the raster at `(width - 1 - x, y)` and window position
`2 radius - x2`. -/
theorem spec_tap_mirrorH (src : IplImage) (hw : src.width ≤ src.widthStep)
    (radius x y x2 y2 : Nat) (hx : x < src.width) (hx2 : x2 ≤ 2 * radius) :
    spec_tap src.mirrorH radius x y x2 y2
      = spec_tap src radius (src.width - 1 - x) y (2 * radius - x2) y2 := by
  have hmw : src.mirrorH.width = src.width := rfl
  have hmh : src.mirrorH.height = src.height := rfl
  unfold spec_tap
  rw [hmw, hmh]
  by_cases hin : 0 ≤ (x : Int) - radius + x2 ∧ (x : Int) - radius + x2 < src.width
      ∧ 0 ≤ (y : Int) - radius + y2 ∧ (y : Int) - radius + y2 < src.height
  · have hin2 : 0 ≤ ((src.width - 1 - x : Nat) : Int) - radius + (2 * radius - x2 : Nat)
        ∧ ((src.width - 1 - x : Nat) : Int) - radius + (2 * radius - x2 : Nat) < src.width
        ∧ 0 ≤ (y : Int) - radius + y2 ∧ (y : Int) - radius + y2 < src.height := by
      omega
    rw [if_pos hin, if_pos hin2, mirrorH_pixel src hw _ _ (by omega)]
    congr 1
    omega
  · have hin2 : ¬ (0 ≤ ((src.width - 1 - x : Nat) : Int) - radius + (2 * radius - x2 : Nat)
        ∧ ((src.width - 1 - x : Nat) : Int) - radius + (2 * radius - x2 : Nat) < src.width
        ∧ 0 ≤ (y : Int) - radius + y2 ∧ (y : Int) - radius + y2 < src.height) := by
      omega
    rw [if_neg hin, if_neg hin2, mirrorH_pixel src hw _ _ hx]

/-- The tap of the vertical mirror at `(x, y)` and window position `y2` is the
tap of the raster at `(x, height - 1 - y)` and window position
`2 radius - y2`. -/
theorem spec_tap_mirrorV (src : IplImage) (hw : src.width ≤ src.widthStep)
    (radius x y x2 y2 : Nat) (hx : x < src.width) (hy : y < src.height)
    (hy2 : y2 ≤ 2 * radius) :
    spec_tap src.mirrorV radius x y x2 y2
      = spec_tap src radius x (src.height - 1 - y) x2 (2 * radius - y2) := by
  have hmw : src.mirrorV.width = src.width := rfl
  have hmh : src.mirrorV.height = src.height := rfl
  unfold spec_tap
  rw [hmw, hmh]
  by_cases hin : 0 ≤ (x : Int) - radius + x2 ∧ (x : Int) - radius + x2 < src.width
      ∧ 0 ≤ (y : Int) - radius + y2 ∧ (y : Int) - radius + y2 < src.height
  · have hin2 : 0 ≤ (x : Int) - radius + x2 ∧ (x : Int) - radius + x2 < src.width
        ∧ 0 ≤ ((src.height - 1 - y : Nat) : Int) - radius + (2 * radius - y2 : Nat)
        ∧ ((src.height - 1 - y : Nat) : Int) - radius + (2 * radius - y2 : Nat) < src.height := by
      omega
    rw [if_pos hin, if_pos hin2, mirrorV_pixel src _ _ (by omega) (by omega)]
    congr 1
    omega
  · have hin2 : ¬ (0 ≤ (x : Int) - radius + x2 ∧ (x : Int) - radius + x2 < src.width
        ∧ 0 ≤ ((src.height - 1 - y : Nat) : Int) - radius + (2 * radius - y2 : Nat)
        ∧ ((src.height - 1 - y : Nat) : Int) - radius + (2 * radius - y2 : Nat) < src.height) := by
      omega
    rw [if_neg hin, if_neg hin2, mirrorV_pixel src _ _ (by omega) hy]

/-- The window sum of the horizontal mirror at `(x, y)` is the window sum of
the raster at `(width - 1 - x, y)`. -/
theorem spec_wsum_mirrorH (src : IplImage) (hw : src.width ≤ src.widthStep) (sigma : ℝ)
    (radius : Nat) (m : CvMat ℝ) (x y : Nat) (hx : x < src.width) :
    spec_wsum src.mirrorH radius (GaussianFilter.kernel sigma radius m) x y
      = spec_wsum src radius (GaussianFilter.kernel sigma radius m) (src.width - 1 - x) y := by
  unfold spec_wsum
  rw [← Finset.sum_range_reflect
    (fun x2 => ∑ y2 in Finset.range (2 * radius + 1),
      ((spec_tap src radius (src.width - 1 - x) y x2 y2).val : ℝ)
        * GaussianFilter.kernel sigma radius m (y2, x2)) (2 * radius + 1)]
  apply Finset.sum_congr rfl
  intro x2 hx2
  have hx2' : x2 ≤ 2 * radius := by
    have := Finset.mem_range.mp hx2
    omega
  have e : 2 * radius + 1 - 1 - x2 = 2 * radius - x2 := by omega
  simp only [e]
  apply Finset.sum_congr rfl
  intro y2 hy2
  have hy2' : y2 ≤ 2 * radius := by
    have := Finset.mem_range.mp hy2
    omega
  rw [spec_tap_mirrorH src hw radius x y x2 y2 hx hx2',
    kernel_reflect_col sigma radius m x2 y2 hx2' hy2']

/-- The window sum of the vertical mirror at `(x, y)` is the window sum of the
raster at `(x, height - 1 - y)`. -/
theorem spec_wsum_mirrorV (src : IplImage) (hw : src.width ≤ src.widthStep) (sigma : ℝ)
    (radius : Nat) (m : CvMat ℝ) (x y : Nat) (hx : x < src.width) (hy : y < src.height) :
    spec_wsum src.mirrorV radius (GaussianFilter.kernel sigma radius m) x y
      = spec_wsum src radius (GaussianFilter.kernel sigma radius m) x (src.height - 1 - y) := by
  unfold spec_wsum
  apply Finset.sum_congr rfl
  intro x2 hx2
  have hx2' : x2 ≤ 2 * radius := by
    have := Finset.mem_range.mp hx2
    omega
  rw [← Finset.sum_range_reflect
    (fun y2 => ((spec_tap src radius x (src.height - 1 - y) x2 y2).val : ℝ)
      * GaussianFilter.kernel sigma radius m (y2, x2)) (2 * radius + 1)]
  apply Finset.sum_congr rfl
  intro y2 hy2
  have hy2' : y2 ≤ 2 * radius := by
    have := Finset.mem_range.mp hy2
    omega
  have e : 2 * radius + 1 - 1 - y2 = 2 * radius - y2 := by omega
  simp only [e]
  rw [spec_tap_mirrorV src hw radius x y x2 y2 hx hy hy2',
    kernel_reflect_row sigma radius m x2 y2 hx2' hy2']

/-- C18: `GaussianFilter` commutes with mirroring a single-channel raster
whose rows hold at least `width` bytes: the filtered horizontal mirror at
`(x, y)` is the filtered raster at `(width - 1 - x, y)`, and the filtered
vertical mirror at `(x, y)` is the filtered raster at `(x, height - 1 - y)`. -/
theorem GaussianFilter_mirror (src dst : IplImage) (sigma : ℝ) (radius : Nat)
    (hw : src.width ≤ src.widthStep) (hstep : src.width ≤ dst.widthStep) (x y : Nat)
    (hx : x < src.width) (hy : y < src.height) :
    (GaussianFilter src.mirrorH dst sigma radius).pixel y x
        = (GaussianFilter src dst sigma radius).pixel y (src.width - 1 - x)
      ∧ (GaussianFilter src.mirrorV dst sigma radius).pixel y x
        = (GaussianFilter src dst sigma radius).pixel (src.height - 1 - y) x := by
  have hH := spec_wsum_mirrorH src hw sigma radius
    (cvCreateMat ℝ (GaussianFilter.length radius) (GaussianFilter.length radius)) x y hx
  have hV := spec_wsum_mirrorV src hw sigma radius
    (cvCreateMat ℝ (GaussianFilter.length radius) (GaussianFilter.length radius)) x y hx hy
  unfold spec_wsum at hH hV
  unfold GaussianFilter
  constructor
  · rw [apply_pixel radius _ _ src.mirrorH dst hstep x y hx hy,
      apply_pixel radius _ _ src dst hstep (src.width - 1 - x) y (by omega) hy, hH]
  · rw [apply_pixel radius _ _ src.mirrorV dst hstep x y hx hy,
      apply_pixel radius _ _ src dst hstep x (src.height - 1 - y) hx (by omega), hV]

/-- C18 at the corner pixel of the 3 x 3 raster with the constants of
`main`. -/
theorem GaussianFilter_mirror_witness :
    sample3x3.width ≤ sample3x3.widthStep ∧ sample3x3.width ≤ blank3x3.widthStep
      ∧ 0 < sample3x3.width ∧ 0 < sample3x3.height
      ∧ (GaussianFilter sample3x3.mirrorH blank3x3 0.8475 4).pixel 0 0
        = (GaussianFilter sample3x3 blank3x3 0.8475 4).pixel 0 (sample3x3.width - 1 - 0)
      ∧ (GaussianFilter sample3x3.mirrorV blank3x3 0.8475 4).pixel 0 0
        = (GaussianFilter sample3x3 blank3x3 0.8475 4).pixel (sample3x3.height - 1 - 0) 0 :=
  ⟨by decide, by decide, by decide, by decide,
   GaussianFilter_mirror sample3x3 blank3x3 0.8475 4 (by decide) (by decide) 0 0 (by decide)
     (by decide)⟩

end NISTDownsampler
